import Mathlib

/-!
# Verification of the kubeminds core against its specification

This file shallowly embeds the parts of the kubeminds source that the
checked claims are about:

* `internal/agent/engine.go` — the agent loop (`BaseAgent.Run`,
  `detectLoop`, `extractRootCause`);
* `internal/alert/aggregator.go` and the alert type file — the alert
  aggregator (`buildGroupKey`, `Ingest`, `sweep`), and the webhook
  handler (`ServeWebhook`, staged inside `handler_test.go`);
* `internal/alert/creator.go` — task naming (`sanitizeName`,
  `buildTaskName`);
* `internal/agent/skill_manager.go` — skill matching (`Match`,
  `matchesTrigger`);
* the terminal-status branch of
  `internal/controller/diagnosistask_controller.go`.

Conventions of the embedding:

* Go strings that undergo character-level processing are modelled as
  `List Char`; strings that are only compared or concatenated stay `String`.
  Go slices bytes (`s[:n]`), the model takes characters; the two agree on
  ASCII data, which is all the relevant code paths produce.
* `time.Time` values are modelled as `Int` instants passed explicitly
  (`time.Now()` becomes a parameter), and `time.Duration` as `Int`.
* Go maps are modelled as association lists; where Go's map iteration
  order is observable (skill matching) the order is an explicit parameter.
* The LLM provider is modelled as the sequence of responses it returns,
  one per loop step; fallible collaborators return `Except`.
* `context.Context` cancellation, wall-clock timestamps inside `Finding`,
  and logging are not modelled; no checked claim depends on them.
-/

namespace KubeMinds

/-! ## Character-list models of the Go `strings` helpers -/

/-- Model of Go `strings.ToLower` for the ASCII range (the marker and
sanitizer code paths only ever compare ASCII prefixes). -/
def lowerChars (l : List Char) : List Char := l.map Char.toLower

/-- Drop trailing characters satisfying `p` (Go `strings.TrimRight`). -/
def dropTrailing (p : Char → Bool) (l : List Char) : List Char :=
  (l.reverse.dropWhile p).reverse

/-- Model of Go `strings.TrimSpace` (leading and trailing whitespace). -/
def trimChars (l : List Char) : List Char :=
  dropTrailing Char.isWhitespace (l.dropWhile Char.isWhitespace)

/-- Model of Go `strings.Split(s, "\n")`: split on newlines, keeping
empty fields. -/
def splitLines : List Char → List (List Char)
  | [] => [[]]
  | c :: rest =>
    match splitLines rest with
    | [] => [[c]]
    | h :: t => if c = '\n' then [] :: h :: t else (c :: h) :: t

/-- Model of Go `strings.Join(lines, "\n")`. -/
def joinLines : List (List Char) → List Char
  | [] => []
  | [l] => l
  | l :: ls => l ++ '\n' :: joinLines ls

/-- Model of Go `line[strings.Index(line, ":")+1:]`: everything after the
first colon; when there is no colon, Go's `Index` returns `-1` and the
slice is the whole line. -/
def afterColon (l : List Char) : List Char :=
  if ':' ∈ l then (l.dropWhile (fun c => !(c == ':'))).drop 1 else l

/-- Model of Go `strings.HasPrefix`. -/
def hasPrefixChars (pre l : List Char) : Bool := pre.isPrefixOf l

/-! ## `BaseAgent.extractRootCause` (engine.go)

The scan over lines keeps two accumulators and two mode flags, exactly as
the Go `switch` does. -/

/-- Does the trimmed, lowercased line start a root-cause block?
(`engine.go`: `strings.HasPrefix(lower, "root cause:") || strings.HasPrefix(lower, "根因:")`). -/
def isRCMarker (line : List Char) : Bool :=
  hasPrefixChars "root cause:".toList (lowerChars (trimChars line)) ||
  hasPrefixChars "根因:".toList (lowerChars (trimChars line))

/-- Does the trimmed, lowercased line start a suggestion block?
(`engine.go`: prefixes `"suggestion:"`, `"建议:"`, `"remediation:"`). -/
def isSGMarker (line : List Char) : Bool :=
  hasPrefixChars "suggestion:".toList (lowerChars (trimChars line)) ||
  hasPrefixChars "建议:".toList (lowerChars (trimChars line)) ||
  hasPrefixChars "remediation:".toList (lowerChars (trimChars line))

/-- State of the line scan in `extractRootCause`: the collected root-cause
and suggestion lines plus the `inRootCause` / `inSuggestion` flags. -/
structure ScanState where
  rcLines : List (List Char)
  sgLines : List (List Char)
  inRC : Bool
  inSG : Bool
deriving Repr, DecidableEq

/-- One iteration of the `for _, line := range strings.Split(content, "\n")`
loop in `extractRootCause`. -/
def scanLine (st : ScanState) (line : List Char) : ScanState :=
  if isRCMarker line then
    let val := trimChars (afterColon line)
    { st with
      inRC := true
      inSG := false
      rcLines := st.rcLines ++ (if val = [] then [] else [val]) }
  else if isSGMarker line then
    let val := trimChars (afterColon line)
    { st with
      inSG := true
      inRC := false
      sgLines := st.sgLines ++ (if val = [] then [] else [val]) }
  else if st.inRC then
    { st with rcLines := st.rcLines ++ [line] }
  else if st.inSG then
    { st with sgLines := st.sgLines ++ [line] }
  else st

/-- `BaseAgent.extractRootCause` (engine.go): parse the final LLM message
for "Root Cause:" / "Suggestion:" markers; fall back to first sentence /
whole content when no root-cause line was collected. -/
def extractRootCause (content : List Char) : List Char × List Char :=
  let st := (splitLines content).foldl scanLine ⟨[], [], false, false⟩
  if st.rcLines ≠ [] then
    (trimChars (joinLines st.rcLines), trimChars (joinLines st.sgLines))
  else if '.' ∈ content then
    (trimChars (content.takeWhile (fun c => !(c == '.'))), trimChars content)
  else
    (trimChars content, trimChars content)

/-! ## `sanitizeName` (alert types) and `buildTaskName` (creator.go) -/

/-- Is `c` a lowercase ASCII letter or digit (the characters `sanitizeName`
keeps)? -/
def isAlnum (c : Char) : Bool :=
  ('a' ≤ c && c ≤ 'z') || ('0' ≤ c && c ≤ '9')

/-- Go `strings.Trim(s, "-")`: strip leading and trailing dashes. -/
def trimDashes (l : List Char) : List Char :=
  dropTrailing (fun c => c == '-') (l.dropWhile (fun c => c == '-'))

/-- `sanitizeName` (alert type file): lowercase, replace every character
outside `[a-z0-9]` with `-`, trim dashes, and if still over `maxLen`
truncate and strip any trailing dashes the cut exposed. -/
def sanitizeName (s : List Char) (maxLen : Nat) : List Char :=
  let replaced := s.map (fun c =>
    if isAlnum c.toLower then c.toLower else '-')
  let result := trimDashes replaced
  if result.length > maxLen then
    dropTrailing (fun c => c == '-') (result.take maxLen)
  else result

/-- The sanitizer exactly as the claim words it: lowercase, replace,
trim leading/trailing dashes, then truncate — with no re-trim after the
truncation. Kept only to compare with the source's `sanitizeName`. -/
def sanitizeNameClaim (s : List Char) (maxLen : Nat) : List Char :=
  let replaced := s.map (fun c =>
    if isAlnum c.toLower then c.toLower else '-')
  (trimDashes replaced).take maxLen

/-- `DiagnosisTaskCreator.buildTaskName` (creator.go):
`"alert-" + sanitize(alertName, 40) + "-" + unix-milliseconds`, with an
empty sanitized segment replaced by `"unknown"`. -/
def buildTaskName (alertName : List Char) (unixMilli : Int) : List Char :=
  let safe := sanitizeName alertName 40
  let safe := if safe = [] then "unknown".toList else safe
  "alert-".toList ++ safe ++ '-' :: (toString unixMilli).toList

/-! ## Agent engine (engine.go, types.go) -/

namespace Agent

/-- `SafetyLevel` (types.go). -/
inductive SafetyLevel
  | readOnly
  | lowRisk
  | highRisk
  | forbidden
deriving Repr, DecidableEq

/-- `FunctionCall` (types.go). -/
structure FunctionCall where
  name : String
  arguments : String
deriving Repr, DecidableEq

/-- `ToolCall` (types.go). -/
structure ToolCall where
  id : String
  function : FunctionCall
deriving Repr, DecidableEq

/-- The `Tool` interface (types.go): name, safety level and the `Execute`
capability (output string or error). `Description`/`Schema` are prompt
payload only and are not modelled. -/
structure Tool where
  name : String
  safetyLevel : SafetyLevel
  execute : String → Except String String

/-- `Finding` (api/v1alpha1): one tool observation. The wall-clock
`Timestamp` field is not modelled. -/
structure Finding where
  step : Nat
  toolName : String
  toolArgs : String
  summary : String
deriving Repr, DecidableEq

/-- One entry of the agent `Memory` (types.go `Message`, as produced by
`AddUserMessage` / `AddAssistantMessage` / `AddAssistantToolCall` /
`AddToolOutput`). -/
inductive MemEntry
  | user (content : String)
  | assistant (content : String)
  | assistantToolCalls (toolCalls : List ToolCall)
  | toolOutput (toolCallID : String) (content : String)
deriving Repr, DecidableEq

/-- One LLM reply (`Message` as returned by `LLMProvider.Chat`). -/
structure LLMResponse where
  content : String
  toolCalls : List ToolCall
deriving Repr, DecidableEq

/-- The observable state accumulated by one `BaseAgent.Run`: the memory,
the findings emitted through `onStepComplete` (the same values that are
appended to `recentFindings`), a log of every `Execute` invocation
as `(tool name, arguments)`, and the number of LLM `Chat` calls. -/
structure AgentState where
  memory : List MemEntry
  findings : List Finding
  execLog : List (String × String)
  llmCalls : Nat
deriving Repr, DecidableEq

/-- Go `for _, t := range a.tools { if t.Name() == name { ... break } }`. -/
def findTool (tools : List Tool) (name : String) : Option Tool :=
  tools.find? (fun t => t.name == name)

/-- engine.go: `"Error: Tool %s not found"`. -/
def notFoundMsg (name : String) : String :=
  "Error: Tool " ++ name ++ " not found"

/-- engine.go: `"Error: Tool %s is forbidden by safety policy."`. -/
def forbiddenMsg (name : String) : String :=
  "Error: Tool " ++ name ++ " is forbidden by safety policy."

/-- engine.go: `"Error executing tool: %v"`. -/
def execErrorMsg (e : String) : String :=
  "Error executing tool: " ++ e

/-- Truncation used for finding summaries (engine.go truncates the byte
slice `summary[:n]` and appends `"..."`; characters here). -/
def truncate (s : String) (n : Nat) : String :=
  if s.length > n then String.mk (s.toList.take n) ++ "..." else s

/-- The `Finding` built for one tool call in the Act phase
(engine.go, `summary` truncated to 200). -/
def mkFinding (stepNum : Nat) (tc : ToolCall) (output : String) : Finding :=
  { step := stepNum
    toolName := tc.function.name
    toolArgs := tc.function.arguments
    summary := truncate output 200 }

/-- Result of handling one requested tool call: either a tool-output
string (with the `Execute` invocation performed, if any), or the decision
to abort the run for approval. -/
inductive CallStep
  | output (out : String) (executed : Option (String × String))
  | approvalNeeded (toolName : String)
deriving Repr

/-- The lookup / safety-gate / execute sequence for one tool call
(engine.go, body of the `for _, toolCall := range response.ToolCalls`
loop before the Observe phase). -/
def runToolCall (tools : List Tool) (approved : Bool) (tc : ToolCall) : CallStep :=
  match findTool tools tc.function.name with
  | none => .output (notFoundMsg tc.function.name) none
  | some t =>
    if t.safetyLevel = .forbidden then
      .output (forbiddenMsg t.name) none
    else if t.safetyLevel = .highRisk ∧ approved = false then
      .approvalNeeded t.name
    else
      match t.execute tc.function.arguments with
      | .ok o => .output o (some (t.name, tc.function.arguments))
      | .error e => .output (execErrorMsg e) (some (t.name, tc.function.arguments))

/-- The Act/Observe/Checkpoint phase over the step's tool calls, in
request order. Returns the new state and `some toolName` when the run
must return `ErrWaitingForApproval{toolName}`. -/
def processToolCalls (tools : List Tool) (approved : Bool) (stepNum : Nat) :
    List ToolCall → AgentState → AgentState × Option String
  | [], st => (st, none)
  | tc :: rest, st =>
    match runToolCall tools approved tc with
    | .approvalNeeded name => (st, some name)
    | .output out exec =>
      processToolCalls tools approved stepNum rest
        { st with
          memory := st.memory ++ [.toolOutput tc.id out]
          findings := st.findings ++ [mkFinding stepNum tc out]
          execLog := st.execLog ++ exec.toList }

/-- `BaseAgent.detectLoop` (engine.go): true when the last `windowSize`
findings all carry the same tool name and arguments. -/
def detectLoop (findings : List Finding) (windowSize : Nat) : Bool :=
  if findings.length < windowSize then false
  else
    match findings.drop (findings.length - windowSize) with
    | [] => true
    | first :: rest =>
      rest.all (fun f => f.toolName == first.toolName && f.toolArgs == first.toolArgs)

/-- `recentFindings[len(recentFindings)-1].ToolName` (engine.go names the
offending tool from the last finding; only evaluated when at least three
findings exist). -/
def lastToolName (findings : List Finding) : String :=
  ((findings.getLast?).map (fun f => f.toolName)).getD ""

/-- `Result` (types.go). -/
structure RunResult where
  rootCause : String
  suggestion : String
deriving Repr, DecidableEq

/-- The value `BaseAgent.Run` returns: the `Result`, or one of the error
shapes the loop produces (`ErrWaitingForApproval` is the only typed one;
the rest are `fmt.Errorf` strings, rendered by `errorMessage`). -/
inductive RunOutcome
  | ok (result : RunResult)
  | waitingForApproval (toolName : String)
  | loopDetected (toolName : String)
  | llmError (message : String)
  | maxStepsExceeded (maxSteps : Nat)
deriving Repr, DecidableEq

/-- The `Error()` string of each error outcome (types.go and the
`fmt.Errorf` calls in engine.go). -/
def errorMessage : RunOutcome → Option String
  | .ok _ => none
  | .waitingForApproval n => some ("tool " ++ n ++ " requires approval")
  | .loopDetected n =>
      some ("agent loop detected: tool \"" ++ n ++
        "\" called with identical arguments 3 consecutive times, aborting to prevent infinite token consumption")
  | .llmError e => some ("failed to chat with LLM: " ++ e)
  | .maxStepsExceeded n =>
      some ("agent exceeded maximum steps (" ++ toString n ++ ")")

/-- Outcome plus final observable state of a run. -/
structure RunTrace where
  outcome : RunOutcome
  finalState : AgentState
deriving Repr, DecidableEq

/-- String-level wrapper of `extractRootCause`. -/
def extractRootCauseS (content : String) : String × String :=
  let p := extractRootCause content.toList
  (String.mk p.1, String.mk p.2)

/-- The `for step := 0; step < a.maxSteps; step++` loop of
`BaseAgent.Run`. `fuel` is the number of remaining iterations
(`maxSteps - stepIdx`); `llm i` is the LLM reply to the `i`-th `Chat`
call (the provider, modelled as the sequence of responses it returns);
the `ctx.Done()` gate is not modelled (cancellation never fires). -/
def runLoop (tools : List Tool) (llm : Nat → Except String LLMResponse)
    (approved : Bool) (maxSteps : Nat) :
    Nat → Nat → AgentState → RunTrace
  | 0, _, st => ⟨.maxStepsExceeded maxSteps, st⟩
  | fuel + 1, stepIdx, st =>
    match llm stepIdx with
    | .error e => ⟨.llmError e, { st with llmCalls := st.llmCalls + 1 }⟩
    | .ok resp =>
      let st0 := { st with llmCalls := st.llmCalls + 1 }
      if resp.toolCalls = [] then
        let st1 := { st0 with memory := st0.memory ++ [.assistant resp.content] }
        let p := extractRootCauseS resp.content
        ⟨.ok ⟨p.1, p.2⟩, st1⟩
      else
        let st1 := { st0 with memory := st0.memory ++ [.assistantToolCalls resp.toolCalls] }
        match processToolCalls tools approved (stepIdx + 1) resp.toolCalls st1 with
        | (st2, some name) => ⟨.waitingForApproval name, st2⟩
        | (st2, none) =>
          if detectLoop st2.findings 3 then
            ⟨.loopDetected (lastToolName st2.findings), st2⟩
          else
            runLoop tools llm approved maxSteps fuel (stepIdx + 1) st2

/-- The goal message `BaseAgent.Run` appends to memory before looping. -/
def goalMessage (goal : String) : String :=
  "Diagnosis Goal: " ++ goal ++
    "\n\nWhen you have enough information to conclude, respond with:\nRoot Cause: <concise root cause>\nSuggestion: <actionable remediation>"

/-- `BaseAgent.Run` (engine.go). `initMemory` is whatever the constructor,
`InjectContext` and `Restore` already placed in memory. -/
def Run (tools : List Tool) (llm : Nat → Except String LLMResponse)
    (maxSteps : Nat) (initMemory : List MemEntry) (goal : String)
    (approved : Bool) : RunTrace :=
  runLoop tools llm approved maxSteps maxSteps 0
    { memory := initMemory ++ [.user (goalMessage goal)]
      findings := []
      execLog := []
      llmCalls := 0 }

end Agent

/-! ## Terminal-status application in the reconciler
(diagnosistask_controller.go, the status update after `ag.Run` returns) -/

namespace Controller

/-- `DiagnosisTask` phases (api/v1alpha1). -/
inductive Phase
  | pending
  | running
  | waitingApproval
  | completed
  | failed
deriving Repr, DecidableEq

/-- `DiagnosisReport` (api/v1alpha1). -/
structure DiagnosisReport where
  rootCause : String
  suggestion : String
deriving Repr, DecidableEq

/-- The status fields the terminal branch touches. -/
structure TaskStatus where
  phase : Phase
  message : String
  report : Option DiagnosisReport
deriving Repr, DecidableEq

/-- The status update the reconciler applies to the freshly re-read task
when `ag.Run` returns (diagnosistask_controller.go): success →
`Completed` with report; `ErrWaitingForApproval` → `WaitingApproval` with
message, report untouched; any other error → `Failed` with
`{RootCause: "Agent execution failed", Suggestion: err.Error()}`. -/
def applyRunOutcome (st : TaskStatus) : Agent.RunOutcome → TaskStatus
  | .ok r =>
    { st with
      phase := .completed
      report := some ⟨r.rootCause, r.suggestion⟩ }
  | .waitingForApproval n =>
    { st with
      phase := .waitingApproval
      message := "Tool " ++ n ++ " requires approval." }
  | o =>
    { st with
      phase := .failed
      report := some ⟨"Agent execution failed", ((Agent.errorMessage o).getD "")⟩ }

end Controller

/-! ## Alert aggregator (aggregator.go and the alert type file) -/

namespace Alert

/-- A Go `map[string]string` of alert labels, as an association list over
character lists (missing key looks up to `""`, like a Go map). -/
abbrev LabelMap := List (List Char × List Char)

/-- Go map read `m[k]` with the zero-value `""` for a missing key. -/
def lookupLabel (m : LabelMap) (k : List Char) : List Char :=
  ((m.find? (fun p => p.1 == k)).map (fun p => p.2)).getD []

/-- Go `_, ok := m[k]` key-presence test. -/
def hasLabel (m : LabelMap) (k : List Char) : Bool :=
  (m.find? (fun p => p.1 == k)).isSome

/-- Go map write `m[k] = v`. -/
def insertLabel (m : LabelMap) (k v : List Char) : LabelMap :=
  if hasLabel m k then
    m.map (fun p => if p.1 == k then (k, v) else p)
  else m ++ [(k, v)]

/-- The label merge in `Ingest`
(`for k, v := range item.Labels { group.MergedLabels[k] = v }`):
later writes overwrite earlier values. -/
def mergeLabels (dst src : LabelMap) : LabelMap :=
  src.foldl (fun acc p => insertLabel acc p.1 p.2) dst

/-- The fields of `AlertItem` the aggregator reads (status and labels;
timestamps, annotations and fingerprint are not consumed by `Ingest`). -/
structure AlertItem where
  status : String
  labels : LabelMap
deriving Repr, DecidableEq

/-- `"" → default` substitution used by `buildGroupKey`. -/
def orDefault (v d : List Char) : List Char := if v = [] then d else v

/-- `buildGroupKey` (alert type file):
`alertname/namespace/pod` with `"unknown"` / `"_"` / `"_"` defaults. -/
def buildGroupKey (labels : LabelMap) : List Char :=
  orDefault (lookupLabel labels "alertname".toList) "unknown".toList
    ++ '/' :: orDefault (lookupLabel labels "namespace".toList) "_".toList
    ++ '/' :: orDefault (lookupLabel labels "pod".toList) "_".toList

/-- `AlertGroup` (alert type file). `nspace` stands for the Go field
`Namespace` (a Lean keyword). Times are `Int` instants. -/
structure AlertGroup where
  key : List Char
  mergedLabels : LabelMap
  alertName : List Char
  nspace : List Char
  pod : List Char
  firstSeen : Int
  lastSeen : Int
  count : Nat
deriving Repr, DecidableEq

/-- The `groups map[GroupKey]*AlertGroup` field plus the window size:
the aggregator state that `Ingest` and `sweep` read and write. -/
structure Aggregator where
  groups : List (List Char × AlertGroup)
  windowSize : Int
deriving Repr, DecidableEq

/-- Go map read on `a.groups`. -/
def lookupGroup (gs : List (List Char × AlertGroup)) (k : List Char) :
    Option AlertGroup :=
  (gs.find? (fun p => p.1 == k)).map (fun p => p.2)

/-- Go map write on `a.groups`. -/
def setGroup (gs : List (List Char × AlertGroup)) (k : List Char)
    (g : AlertGroup) : List (List Char × AlertGroup) :=
  if (gs.find? (fun p => p.1 == k)).isSome then
    gs.map (fun p => if p.1 == k then (k, g) else p)
  else gs ++ [(k, g)]

/-- `Aggregator.Ingest` (aggregator.go). `now` stands for the
`time.Now()` taken at the top of the function. Every path of the Go
function ends in `return nil`, hence the unconditional `.ok`. -/
def Ingest (a : Aggregator) (item : AlertItem) (now : Int) :
    Except String Aggregator :=
  let key := buildGroupKey item.labels
  let group : AlertGroup :=
    match lookupGroup a.groups key with
    | some g => g
    | none =>
      { key := key
        mergedLabels := []
        alertName := lookupLabel item.labels "alertname".toList
        nspace := lookupLabel item.labels "namespace".toList
        pod := lookupLabel item.labels "pod".toList
        firstSeen := now
        lastSeen := 0
        count := 0 }
  let group :=
    { group with
      mergedLabels := mergeLabels group.mergedLabels item.labels
      lastSeen := now
      count := group.count + 1 }
  .ok { a with groups := setGroup a.groups key group }

/-- `Aggregator.sweep` (aggregator.go): collect and delete the groups
whose `now − lastSeen > windowSize`, then flush each collected group
(one `DiagnosisTask` created per flushed group). Returns the new state
and the flushed `(key, group)` pairs; the Go map iteration order is
determinized to list order (no claim depends on flush order). -/
def sweep (a : Aggregator) (now : Int) :
    Aggregator × List (List Char × AlertGroup) :=
  let expired := a.groups.filter (fun p => now - p.2.lastSeen > a.windowSize)
  let remaining := a.groups.filter (fun p => ¬(now - p.2.lastSeen > a.windowSize))
  ({ a with groups := remaining }, expired)

/-- `DiagnosisTarget` (api/v1alpha1), as derived by
`DiagnosisTaskCreator.buildTarget`. -/
structure DiagnosisTarget where
  nspace : List Char
  name : List Char
  kind : List Char
deriving Repr, DecidableEq

/-- `DiagnosisTaskCreator.buildTarget` (creator.go): pod-level target when
the group has a pod, namespace-level otherwise (with the creator's
configured default namespace for an empty one). -/
def buildTarget (defaultNs : List Char) (g : AlertGroup) : DiagnosisTarget :=
  if g.pod ≠ [] then
    { nspace := g.nspace, name := g.pod, kind := "Pod".toList }
  else
    let ns := if g.nspace = [] then defaultNs else g.nspace
    { nspace := ns, name := ns, kind := "Namespace".toList }

/-- The fields of the created `DiagnosisTask` that the claims mention
(`DiagnosisTaskCreator.buildTask`, creator.go). -/
structure DiagnosisTaskObj where
  name : List Char
  target : DiagnosisTarget
  alertName : List Char
  alertLabels : LabelMap
deriving Repr, DecidableEq

/-- `DiagnosisTaskCreator.buildTask` (creator.go); `nowMs` is the
`time.Now().UnixMilli()` read inside `buildTaskName`. -/
def buildTask (defaultNs : List Char) (g : AlertGroup) (nowMs : Int) :
    DiagnosisTaskObj :=
  { name := buildTaskName g.alertName nowMs
    target := buildTarget defaultNs g
    alertName := g.alertName
    alertLabels := g.mergedLabels }

/-- One sweep together with the `DiagnosisTask` objects its flushes
create — exactly one per expired group (`Aggregator.sweep` +
`Aggregator.flush` + `DiagnosisTaskCreator.Create`). -/
def sweepAndCreate (defaultNs : List Char) (a : Aggregator) (now nowMs : Int) :
    Aggregator × List DiagnosisTaskObj :=
  let p := sweep a now
  (p.1, p.2.map (fun kg => buildTask defaultNs kg.2 nowMs))

/-- The alerts array of the AlertManager v4 webhook payload (the only
payload field the handler consumes). -/
structure AlertManagerPayload where
  alerts : List AlertItem
deriving Repr, DecidableEq

/-- The `for _, item := range payload.Alerts` loop of
`Handler.ServeWebhook` (handler file, staged inside
`internal/alert/handler_test.go`): a non-`"firing"` item is skipped
(`continue`); a firing item is ingested, and an `Ingest` error answers
`500` and returns at once; reaching the end of the loop answers `202`
(the `firing` counter is only logged and is not modelled). -/
def serveItems (a : Aggregator) (now : Int) :
    List AlertItem → Nat × Aggregator
  | [] => (202, a)
  | item :: rest =>
    if item.status == "firing" then
      match Ingest a item now with
      | .ok a' => serveItems a' now rest
      | .error _ => (500, a)
    else serveItems a now rest

/-- `Handler.ServeWebhook` (handler file, staged inside
`internal/alert/handler_test.go`), as (HTTP status, new aggregator
state). `none` stands for a request body the JSON decoder rejects,
answered with `400` ("invalid request body"); a decoded payload is
processed item by item by the loop above. -/
def ServeWebhook (a : Aggregator) (now : Int)
    (body : Option AlertManagerPayload) : Nat × Aggregator :=
  match body with
  | none => (400, a)
  | some payload => serveItems a now payload.alerts

end Alert

/-! ## Lemmas about the association-list model of Go maps -/

/-- `List.find?_cons_of_pos` with the predicate explicit, to steer
unification. -/
theorem find?_cons_pos {α : Type} (p : α → Bool) (a : α) (l : List α)
    (h : p a = true) : (a :: l).find? p = some a :=
  List.find?_cons_of_pos l h

/-- `List.find?_cons_of_neg` with the predicate explicit. -/
theorem find?_cons_neg {α : Type} (p : α → Bool) (a : α) (l : List α)
    (h : ¬p a = true) : (a :: l).find? p = l.find? p :=
  List.find?_cons_of_neg l h

/-- Replacing the value stored under `k` does not change which entry a
lookup for a different key `j` finds. -/
theorem find?_map_replace {α : Type} (k j : List Char) (v : α)
    (hjk : ¬j = k) :
    ∀ m : List (List Char × α),
      (m.map (fun p => if p.1 == k then (k, v) else p)).find?
          (fun p => p.1 == j)
        = m.find? (fun p => p.1 == j) := by
  intro m
  induction m with
  | nil => rfl
  | cons a m ih =>
    rw [List.map_cons]
    by_cases h1 : a.1 = k
    · have hfa : (if a.1 == k then ((k, v) : List Char × α) else a) = (k, v) := by
        simp [h1]
      rw [hfa]
      rw [find?_cons_neg (fun p => p.1 == j) ((k, v) : List Char × α) _
          (by simp; exact fun h => hjk h.symm),
        find?_cons_neg (fun p => p.1 == j) a _
          (by simp [h1]; exact fun h => hjk h.symm)]
      exact ih
    · have hfa : (if a.1 == k then ((k, v) : List Char × α) else a) = a := by
        simp [h1]
      rw [hfa]
      by_cases h2 : a.1 = j
      · rw [find?_cons_pos (fun p => p.1 == j) a _ (by simp [h2]),
          find?_cons_pos (fun p => p.1 == j) a _ (by simp [h2])]
      · rw [find?_cons_neg (fun p => p.1 == j) a _ (by simp [h2]),
          find?_cons_neg (fun p => p.1 == j) a _ (by simp [h2])]
        exact ih

/-- Under replacement of key `k`, looking up `k` finds the new value,
provided `k` was present. -/
theorem find?_map_replace_self {α : Type} (k : List Char) (v : α) :
    ∀ m : List (List Char × α),
      (m.find? (fun p => p.1 == k)).isSome →
      (m.map (fun p => if p.1 == k then (k, v) else p)).find?
          (fun p => p.1 == k)
        = some (k, v) := by
  intro m
  induction m with
  | nil => intro h; simp [List.find?] at h
  | cons a m ih =>
    intro h
    rw [List.map_cons]
    by_cases h1 : a.1 = k
    · have hfa : (if a.1 == k then ((k, v) : List Char × α) else a) = (k, v) := by
        simp [h1]
      rw [hfa, find?_cons_pos (fun p => p.1 == k) ((k, v) : List Char × α) _ (by simp)]
    · have hfa : (if a.1 == k then ((k, v) : List Char × α) else a) = a := by
        simp [h1]
      rw [hfa, find?_cons_neg (fun p => p.1 == k) a _ (by simp [h1])]
      apply ih
      rw [find?_cons_neg (fun p => p.1 == k) a _ (by simp [h1])] at h
      exact h

/-- Appending a fresh binding `(k, v)`: looking up `k` now finds `v`,
other keys are unaffected. -/
theorem find?_append_single {α : Type} (k j : List Char) (v : α) :
    ∀ m : List (List Char × α),
      m.find? (fun p => p.1 == k) = none →
      ((m ++ [(k, v)]).find? (fun p => p.1 == j)).map (fun p => p.2)
        = if j = k then some v
          else (m.find? (fun p => p.1 == j)).map (fun p => p.2) := by
  intro m
  induction m with
  | nil =>
    intro _
    rw [List.nil_append]
    by_cases hj : j = k
    · rw [if_pos hj,
        find?_cons_pos (fun p => p.1 == j) ((k, v) : List Char × α) _ (by simp [hj])]
      rfl
    · rw [if_neg hj,
        find?_cons_neg (fun p => p.1 == j) ((k, v) : List Char × α) _
          (by simp; exact fun h => hj h.symm)]
  | cons a m ih =>
    intro hnone
    have hak : ¬(a.1 == k) = true := by
      intro hcontra
      rw [find?_cons_pos (fun p => p.1 == k) a m hcontra] at hnone
      exact Option.noConfusion hnone
    rw [find?_cons_neg (fun p => p.1 == k) a m hak] at hnone
    rw [List.cons_append]
    by_cases h2 : a.1 = j
    · have hjk : ¬j = k := by
        rw [← h2]; simpa using hak
      rw [if_neg hjk,
        find?_cons_pos (fun p => p.1 == j) a _ (by simp [h2]),
        find?_cons_pos (fun p => p.1 == j) a _ (by simp [h2])]
    · rw [find?_cons_neg (fun p => p.1 == j) a _ (by simp [h2]),
        find?_cons_neg (fun p => p.1 == j) a _ (by simp [h2])]
      exact ih hnone

/-- Go map update followed by lookup, on the association-list model:
looking up the written key yields the new value, any other key is
unaffected. The statement is over the common shape of `insertLabel` and
`setGroup`. -/
theorem lookup_set_generic {α : Type} (k j : List Char) (v : α)
    (m : List (List Char × α)) :
    (((if (m.find? (fun p => p.1 == k)).isSome
        then m.map (fun p => if p.1 == k then (k, v) else p)
        else m ++ [(k, v)]).find? (fun p => p.1 == j)).map
          (fun p => p.2))
      = if j = k then some v
        else (m.find? (fun p => p.1 == j)).map (fun p => p.2) := by
  by_cases hpres : (m.find? (fun p => p.1 == k)).isSome
  · rw [if_pos hpres]
    by_cases hj : j = k
    · subst hj
      rw [if_pos rfl, find?_map_replace_self j v m hpres]
      rfl
    · rw [if_neg hj, find?_map_replace k j v hj m]
  · rw [if_neg hpres]
    exact find?_append_single k j v m (Option.not_isSome_iff_eq_none.mp hpres)

/-! ## Lemmas about labels, group keys and `Ingest` -/

namespace Alert

/-- Specialization of `lookup_set_generic` to label maps. -/
theorem lookupLabel_insertLabel (m : LabelMap) (k v j : List Char) :
    lookupLabel (insertLabel m k v) j
      = if j = k then v else lookupLabel m j := by
  have h := KubeMinds.lookup_set_generic k j v m
  unfold lookupLabel insertLabel hasLabel
  by_cases hj : j = k
  · rw [h, if_pos hj, if_pos hj]
    rfl
  · rw [h, if_neg hj, if_neg hj]

/-- A key outside the stored keys is never found. -/
theorem hasLabel_eq_false_of_not_mem (m : LabelMap) (k : List Char)
    (h : k ∉ m.map Prod.fst) : hasLabel m k = false := by
  unfold hasLabel
  cases hfind : m.find? (fun p => p.1 == k) with
  | none => rfl
  | some a =>
    exfalso
    have h1 : a.1 = k := by simpa using List.find?_some hfind
    have h2 : a ∈ m := List.mem_of_find?_eq_some hfind
    exact h (h1 ▸ List.mem_map_of_mem Prod.fst h2)

/-- `hasLabel` on a cons whose head has a different key. -/
theorem hasLabel_cons_ne (p : List Char × List Char) (m : LabelMap)
    (j : List Char) (h : ¬p.1 = j) :
    hasLabel (p :: m) j = hasLabel m j := by
  unfold hasLabel
  rw [KubeMinds.find?_cons_neg (fun q => q.1 == j) p m (by simp [h])]

/-- `lookupLabel` on a cons whose head has a different key. -/
theorem lookupLabel_cons_ne (p : List Char × List Char) (m : LabelMap)
    (j : List Char) (h : ¬p.1 = j) :
    lookupLabel (p :: m) j = lookupLabel m j := by
  unfold lookupLabel
  rw [KubeMinds.find?_cons_neg (fun q => q.1 == j) p m (by simp [h])]

/-- The label merge of `Ingest` is last-writer-wins: for item label maps
with distinct keys (as a Go map always has), a merged lookup prefers the
item's value and falls back to the group's previous value. -/
theorem lookupLabel_mergeLabels :
    ∀ (src dst : LabelMap) (j : List Char),
      (src.map Prod.fst).Nodup →
      lookupLabel (mergeLabels dst src) j
        = if hasLabel src j then lookupLabel src j else lookupLabel dst j := by
  intro src
  induction src with
  | nil =>
    intro dst j _
    simp [mergeLabels, hasLabel, List.find?]
  | cons p rest ih =>
    intro dst j hnodup
    obtain ⟨hhead, htail⟩ := List.nodup_cons.mp hnodup
    have hfold : mergeLabels dst (p :: rest)
        = mergeLabels (insertLabel dst p.1 p.2) rest := by
      simp [mergeLabels]
    rw [hfold, ih (insertLabel dst p.1 p.2) j htail]
    by_cases hj : j = p.1
    · have hrest : hasLabel rest j = false :=
        hasLabel_eq_false_of_not_mem rest j (by rw [hj]; exact hhead)
      rw [hrest]
      simp only [Bool.false_eq_true, if_false]
      rw [lookupLabel_insertLabel dst p.1 p.2 j, if_pos hj]
      have hcons : hasLabel (p :: rest) j = true := by
        unfold hasLabel
        rw [KubeMinds.find?_cons_pos (fun q => q.1 == j) p rest (by simp [hj])]
        rfl
      rw [hcons, if_pos rfl]
      unfold lookupLabel
      rw [KubeMinds.find?_cons_pos (fun q => q.1 == j) p rest (by simp [hj])]
      rfl
    · have hne : ¬p.1 = j := fun h => hj h.symm
      rw [hasLabel_cons_ne p rest j hne, lookupLabel_cons_ne p rest j hne,
        lookupLabel_insertLabel dst p.1 p.2 j, if_neg hj]

/-- Specialization of `lookup_set_generic` to the groups map: reading
back the key just written. -/
theorem lookupGroup_setGroup_self (gs : List (List Char × AlertGroup))
    (k : List Char) (g : AlertGroup) :
    lookupGroup (setGroup gs k g) k = some g := by
  have h := KubeMinds.lookup_set_generic k k g gs
  unfold lookupGroup setGroup
  rw [h, if_pos rfl]

/-- The last character of a built group key for a pod-less item is the
placeholder `'_'`. -/
theorem buildGroupKey_getLast_no_pod (ls : LabelMap)
    (h : lookupLabel ls "pod".toList = []) :
    (buildGroupKey ls).getLast? = some '_' := by
  unfold buildGroupKey orDefault
  rw [h, if_pos rfl]
  have hu : "_".toList = ['_'] := rfl
  rw [hu, List.getLast?_append_cons]
  rfl

/-- The last character of a built group key for an item with a pod label
is the pod's last character. -/
theorem buildGroupKey_getLast_pod (ls : LabelMap)
    (h : lookupLabel ls "pod".toList ≠ []) :
    (buildGroupKey ls).getLast? = (lookupLabel ls "pod".toList).getLast? := by
  unfold buildGroupKey orDefault
  rw [if_neg h, List.getLast?_append_cons]
  exact List.getLast?_append_of_ne_nil ['/'] h

end Alert

/-- **C7.** The group key is the `alertname/namespace/pod` triple with
defaults `"unknown"`, `"_"`, `"_"`; an item with no pod label never shares
a group with an item whose pod label is a real pod name (nonempty,
without the reserved `'_'`); and an ingest into an existing group merges
the item's labels last-writer-wins, keeps `firstSeen`, sets `lastSeen` to
the ingest time, and increments `count` by exactly one. -/
theorem claim_C7_group_key_and_merge :
    (∀ labels : Alert.LabelMap,
      Alert.buildGroupKey labels =
        Alert.orDefault (Alert.lookupLabel labels "alertname".toList)
            "unknown".toList
          ++ '/' :: Alert.orDefault (Alert.lookupLabel labels "namespace".toList)
            "_".toList
          ++ '/' :: Alert.orDefault (Alert.lookupLabel labels "pod".toList)
            "_".toList) ∧
    (∀ ls1 ls2 : Alert.LabelMap,
      Alert.lookupLabel ls1 "pod".toList = [] →
      Alert.lookupLabel ls2 "pod".toList ≠ [] →
      '_' ∉ Alert.lookupLabel ls2 "pod".toList →
      Alert.buildGroupKey ls1 ≠ Alert.buildGroupKey ls2) ∧
    (∀ (a : Alert.Aggregator) (item : Alert.AlertItem) (now : Int)
        (g : Alert.AlertGroup),
      Alert.lookupGroup a.groups (Alert.buildGroupKey item.labels) = some g →
      ∃ a', Alert.Ingest a item now = .ok a' ∧
        ∃ g', Alert.lookupGroup a'.groups (Alert.buildGroupKey item.labels)
            = some g' ∧
          g'.firstSeen = g.firstSeen ∧
          g'.lastSeen = now ∧
          g'.count = g.count + 1 ∧
          ((item.labels.map Prod.fst).Nodup →
            ∀ k, Alert.lookupLabel g'.mergedLabels k =
              if Alert.hasLabel item.labels k
                then Alert.lookupLabel item.labels k
                else Alert.lookupLabel g.mergedLabels k)) := by
  refine ⟨fun labels => rfl, ?_, ?_⟩
  · intro ls1 ls2 h1 h2 h3 heq
    have k1 := Alert.buildGroupKey_getLast_no_pod ls1 h1
    have k2 := Alert.buildGroupKey_getLast_pod ls2 h2
    rw [heq, k2] at k1
    have hlast := List.getLast?_eq_getLast_of_ne_nil h2
    rw [hlast] at k1
    have hc : (Alert.lookupLabel ls2 "pod".toList).getLast h2 = '_' :=
      Option.some_injective _ k1
    exact h3 (hc ▸ List.getLast_mem h2)
  · intro a item now g hg
    refine ⟨_, rfl, ?_⟩
    simp only [Alert.Ingest, hg]
    refine ⟨_, Alert.lookupGroup_setGroup_self _ _ _, rfl, rfl, rfl, ?_⟩
    intro hnodup k
    exact Alert.lookupLabel_mergeLabels item.labels g.mergedLabels k hnodup

/-- Witness for C7, at concrete label maps: key disjointness between a
pod-less and a pod-carrying item, and a concrete second ingest merging
labels, keeping `firstSeen`, bumping `lastSeen` and `count`. -/
theorem claim_C7_group_key_and_merge_witness :
    Alert.buildGroupKey [("alertname".toList, "A".toList)]
        ≠ Alert.buildGroupKey
            [("alertname".toList, "A".toList), ("pod".toList, "p1".toList)] ∧
    (∃ a', Alert.Ingest
        ⟨[(Alert.buildGroupKey [("alertname".toList, "A".toList)],
            ⟨"a/_/_".toList, [("alertname".toList, "A".toList)],
              "A".toList, [], [], 5, 5, 1⟩)], 60⟩
        ⟨"firing", [("alertname".toList, "A".toList)]⟩ 9 = .ok a' ∧
      ∃ g', Alert.lookupGroup a'.groups
            (Alert.buildGroupKey [("alertname".toList, "A".toList)])
          = some g' ∧
        g'.firstSeen = 5 ∧ g'.lastSeen = 9 ∧ g'.count = 2) := by
  constructor
  · exact claim_C7_group_key_and_merge.2.1
      [("alertname".toList, "A".toList)]
      [("alertname".toList, "A".toList), ("pod".toList, "p1".toList)]
      (by decide) (by decide) (by decide)
  · obtain ⟨a', ha', g', hg', hfs, hls, hc, -⟩ :=
      claim_C7_group_key_and_merge.2.2
        ⟨[(Alert.buildGroupKey [("alertname".toList, "A".toList)],
            ⟨"a/_/_".toList, [("alertname".toList, "A".toList)],
              "A".toList, [], [], 5, 5, 1⟩)], 60⟩
        ⟨"firing", [("alertname".toList, "A".toList)]⟩ 9
        ⟨"a/_/_".toList, [("alertname".toList, "A".toList)],
          "A".toList, [], [], 5, 5, 1⟩
        (by decide)
    exact ⟨a', ha', g', hg', hfs, hls, hc⟩

/-! ## Lemmas about `sanitizeName` and `buildTaskName` -/

/-- `dropTrailing` yields a prefix of its input. -/
theorem dropTrailing_prefix_self (p : Char → Bool) (l : List Char) :
    dropTrailing p l <+: l := by
  unfold dropTrailing
  have h : (l.reverse.dropWhile p).reverse.reverse <:+ l.reverse :=
    (List.reverse_reverse (l.reverse.dropWhile p)).symm ▸
      List.dropWhile_suffix p
  have := List.reverse_prefix.mpr h
  simpa using this

/-- A nonempty prefix starts with the same head. -/
theorem IsPrefix_head? {l' l : List Char} (h : l' <+: l) (hne : l' ≠ []) :
    l.head? = l'.head? := by
  obtain ⟨t, rfl⟩ := h
  cases l' with
  | nil => exact absurd rfl hne
  | cons a l' => rfl

/-- The head surviving `dropWhile p` fails `p`. -/
theorem dropWhile_head?_false (p : Char → Bool) :
    ∀ (l : List Char) (c : Char), (l.dropWhile p).head? = some c → p c = false := by
  intro l
  induction l with
  | nil => intro c h; simp [List.dropWhile] at h
  | cons a l ih =>
    intro c h
    by_cases ha : p a
    · rw [List.dropWhile_cons_of_pos ha] at h
      exact ih c h
    · rw [List.dropWhile_cons_of_neg ha] at h
      cases h
      simpa using ha

/-- The last element surviving `dropTrailing p` fails `p`. -/
theorem dropTrailing_getLast?_false (p : Char → Bool) (l : List Char) (c : Char)
    (h : (dropTrailing p l).getLast? = some c) : p c = false := by
  unfold dropTrailing at h
  rw [List.getLast?_reverse] at h
  exact dropWhile_head?_false p l.reverse c h

/-- Membership in `dropTrailing` implies membership in the input. -/
theorem mem_dropTrailing {p : Char → Bool} {l : List Char} {c : Char}
    (h : c ∈ dropTrailing p l) : c ∈ l :=
  (dropTrailing_prefix_self p l).subset h

/-- Membership in `trimDashes` implies membership in the input. -/
theorem mem_trimDashes {l : List Char} {c : Char}
    (h : c ∈ trimDashes l) : c ∈ l :=
  (List.dropWhile_sublist _).subset (mem_dropTrailing h)

/-- Every character of a sanitized name is a lowercase alphanumeric or a
dash. -/
theorem mem_sanitizeName (s : List Char) (n : Nat) (c : Char)
    (h : c ∈ sanitizeName s n) : isAlnum c = true ∨ c = '-' := by
  have hrep : ∀ d ∈ s.map (fun c =>
      if isAlnum c.toLower then c.toLower else '-'),
      isAlnum d = true ∨ d = '-' := by
    intro d hd
    obtain ⟨o, -, rfl⟩ := List.mem_map.mp hd
    by_cases ho : isAlnum o.toLower
    · exact Or.inl (by simp [ho])
    · simp [ho]
  have hmem : c ∈ s.map (fun c =>
      if isAlnum c.toLower then c.toLower else '-') := by
    unfold sanitizeName at h
    by_cases hlen : (trimDashes (s.map (fun c =>
        if isAlnum c.toLower then c.toLower else '-'))).length > n
    · rw [if_pos hlen] at h
      have h1 := mem_dropTrailing h
      have h2 := (List.take_prefix n _).subset h1
      exact mem_trimDashes h2
    · rw [if_neg hlen] at h
      exact mem_trimDashes h
  exact hrep c hmem

/-- A sanitized name never starts with a dash. -/
theorem sanitizeName_head?_ne (s : List Char) (n : Nat) :
    (sanitizeName s n).head? ≠ some '-' := by
  intro h
  unfold sanitizeName at h
  set replaced := s.map (fun c => if isAlnum c.toLower then c.toLower else '-')
    with hrep
  have htrim : ∀ c, (trimDashes replaced).head? = some c → (c == '-') = false := by
    intro c hc
    unfold trimDashes at hc
    have hpre := dropTrailing_prefix_self (fun c => c == '-')
      (replaced.dropWhile (fun c => c == '-'))
    have hne : dropTrailing (fun c => c == '-')
        (replaced.dropWhile (fun c => c == '-')) ≠ [] := by
      intro hnil
      rw [hnil] at hc
      exact Option.noConfusion hc
    rw [← IsPrefix_head? hpre hne] at hc
    exact dropWhile_head?_false _ _ c hc
  by_cases hlen : (trimDashes replaced).length > n
  · rw [if_pos hlen] at h
    have hpre1 := dropTrailing_prefix_self (fun c => c == '-')
      ((trimDashes replaced).take n)
    have hne1 : dropTrailing (fun c => c == '-')
        ((trimDashes replaced).take n) ≠ [] := by
      intro hnil
      rw [hnil] at h
      exact Option.noConfusion h
    rw [← IsPrefix_head? hpre1 hne1] at h
    have hpre2 := List.take_prefix n (trimDashes replaced)
    have hne2 : (trimDashes replaced).take n ≠ [] := by
      intro hnil
      rw [hnil] at h
      simp at h
    rw [← IsPrefix_head? hpre2 hne2] at h
    have := htrim '-' h
    simp at this
  · rw [if_neg hlen] at h
    have := htrim '-' h
    simp at this

/-- A sanitized name never ends with a dash. -/
theorem sanitizeName_getLast?_ne (s : List Char) (n : Nat) :
    (sanitizeName s n).getLast? ≠ some '-' := by
  intro h
  unfold sanitizeName at h
  by_cases hlen : (trimDashes (s.map (fun c =>
      if isAlnum c.toLower then c.toLower else '-'))).length > n
  · rw [if_pos hlen] at h
    have := dropTrailing_getLast?_false _ _ _ h
    simp at this
  · rw [if_neg hlen] at h
    unfold trimDashes at h
    have := dropTrailing_getLast?_false _ _ _ h
    simp at this

/-- A sanitized name respects the length bound. -/
theorem sanitizeName_length_le (s : List Char) (n : Nat) :
    (sanitizeName s n).length ≤ n := by
  unfold sanitizeName
  by_cases hlen : (trimDashes (s.map (fun c =>
      if isAlnum c.toLower then c.toLower else '-'))).length > n
  · rw [if_pos hlen]
    have h1 := (dropTrailing_prefix_self (fun c => c == '-')
      ((trimDashes (s.map (fun c =>
        if isAlnum c.toLower then c.toLower else '-'))).take n)).length_le
    have h2 : ((trimDashes (s.map (fun c =>
        if isAlnum c.toLower then c.toLower else '-'))).take n).length ≤ n := by
      rw [List.length_take]
      omega
    omega
  · rw [if_neg hlen]
    omega

/-- **C8 (counterexample).** On a 42-character alert name whose 40th
character (after replacement and trimming) is a dash, the claim's
sanitizer order — trim, then truncate, with no re-trim — leaves a
trailing dash, and the task name built by the code differs from the
claim's formula. -/
theorem claim_C8_task_name_cex :
    sanitizeNameClaim "aaaaaaaaaaaaaaaaaaaaaaaaaaaaaaaaaaaaaaa.bb".toList 40
        ≠ sanitizeName "aaaaaaaaaaaaaaaaaaaaaaaaaaaaaaaaaaaaaaa.bb".toList 40 ∧
    (sanitizeNameClaim "aaaaaaaaaaaaaaaaaaaaaaaaaaaaaaaaaaaaaaa.bb".toList
        40).getLast? = some '-' ∧
    buildTaskName "aaaaaaaaaaaaaaaaaaaaaaaaaaaaaaaaaaaaaaa.bb".toList 0
        ≠ "alert-".toList
          ++ sanitizeNameClaim "aaaaaaaaaaaaaaaaaaaaaaaaaaaaaaaaaaaaaaa.bb".toList 40
          ++ '-' :: (toString (0 : Int)).toList := by
  refine ⟨by decide, by decide, by decide⟩

/-- **C8 (amended).** The task name is
`"alert-" + sanitize(alertName, 40) + "-" + unix-milliseconds` where
`sanitize` lowercases, replaces every character outside `[a-z0-9]` with
`-`, trims leading and trailing `-`, truncates to 40 characters *and
strips any trailing dashes the truncation exposed*; an empty result
becomes `"unknown"`; the resulting segment is nonempty, contains only
`[a-z0-9-]`, has no leading or trailing `-`, and is at most 40 characters
(the `"unknown"` substitute included). -/
theorem claim_C8_task_name_amended :
    (∀ (alertName : List Char) (ms : Int),
      buildTaskName alertName ms
        = "alert-".toList
          ++ (if sanitizeName alertName 40 = [] then "unknown".toList
              else sanitizeName alertName 40)
          ++ '-' :: (toString ms).toList) ∧
    (∀ (s seg : List Char),
      seg = (if sanitizeName s 40 = [] then "unknown".toList
             else sanitizeName s 40) →
      seg ≠ [] ∧
      (∀ c ∈ seg, isAlnum c = true ∨ c = '-') ∧
      seg.head? ≠ some '-' ∧
      seg.getLast? ≠ some '-' ∧
      seg.length ≤ 40) := by
  constructor
  · intro alertName ms
    rfl
  · intro s seg hseg
    by_cases hempty : sanitizeName s 40 = []
    · rw [hempty, if_pos rfl] at hseg
      subst hseg
      refine ⟨by decide, ?_, by decide, by decide, by decide⟩
      intro c hc
      fin_cases hc <;> simp [isAlnum]
    · rw [if_neg hempty] at hseg
      subst hseg
      exact ⟨hempty, fun c hc => mem_sanitizeName s 40 c hc,
        sanitizeName_head?_ne s 40, sanitizeName_getLast?_ne s 40,
        sanitizeName_length_le s 40⟩

/-- Witness for the amended C8 at a concrete alert name. -/
theorem claim_C8_task_name_amended_witness :
    buildTaskName "Kube-Pod Crash!".toList 17
        = "alert-".toList
          ++ (if sanitizeName "Kube-Pod Crash!".toList 40 = [] then "unknown".toList
              else sanitizeName "Kube-Pod Crash!".toList 40)
          ++ '-' :: (toString (17 : Int)).toList ∧
    ("kube-pod-crash".toList ≠ [] ∧
      (∀ c ∈ "kube-pod-crash".toList, isAlnum c = true ∨ c = '-') ∧
      "kube-pod-crash".toList.head? ≠ some '-' ∧
      "kube-pod-crash".toList.getLast? ≠ some '-' ∧
      "kube-pod-crash".toList.length ≤ 40) := by
  constructor
  · exact claim_C8_task_name_amended.1 "Kube-Pod Crash!".toList 17
  · exact claim_C8_task_name_amended.2 "Kube-Pod Crash!".toList
      "kube-pod-crash".toList (by decide)

/-! ## Lemmas about `sweep` -/

namespace Alert

/-- A `(key, group)` pair is flushed by a sweep iff it is active and its
silence exceeds the window strictly. -/
theorem mem_sweep_flushed (a : Aggregator) (now : Int) (k : List Char)
    (g : AlertGroup) :
    (k, g) ∈ (sweep a now).2 ↔
      (k, g) ∈ a.groups ∧ now - g.lastSeen > a.windowSize := by
  simp [sweep, List.mem_filter]

/-- A `(key, group)` pair survives a sweep iff it is active and within
the window. -/
theorem mem_sweep_remaining (a : Aggregator) (now : Int) (k : List Char)
    (g : AlertGroup) :
    (k, g) ∈ (sweep a now).1.groups ↔
      (k, g) ∈ a.groups ∧ ¬(now - g.lastSeen > a.windowSize) := by
  simp [sweep, List.mem_filter]

/-- Every ingest leaves the touched group with `lastSeen` equal to the
ingest time. -/
theorem Ingest_sets_lastSeen (a : Aggregator) (item : AlertItem) (now : Int) :
    ∃ a' g', Ingest a item now = .ok a' ∧
      lookupGroup a'.groups (buildGroupKey item.labels) = some g' ∧
      g'.lastSeen = now :=
  ⟨_, _, rfl, lookupGroup_setGroup_self _ _ _, rfl⟩

end Alert

/-- **C4 (counterexample).** With window `w = 2` and ingests at `t₀ = 0`
and `t₀ + w/2 = 1`, a sweep at exactly `t₀ + 3w/2 = 3` creates no task
(the elapsed silence equals `w` and expiry requires strictly more), while
the claim demands exactly one. -/
theorem claim_C4_sliding_window_cex :
    ∃ a₁ a₂,
      Alert.Ingest ⟨[], 2⟩ ⟨"firing", [("alertname".toList, "A".toList)]⟩ 0
          = .ok a₁ ∧
      Alert.Ingest a₁ ⟨"firing", [("alertname".toList, "A".toList)]⟩ 1
          = .ok a₂ ∧
      (Alert.sweepAndCreate [] a₂ 3 3).2.length = 0 := by
  refine ⟨_, _, rfl, rfl, ?_⟩
  decide

/-- **C4 (amended).** A sweep at time `s` flushes a group (removing it
and creating exactly one task for it) iff `s − lastSeen > windowSize`;
every ingest sets `lastSeen` to the ingest time, so a group ingested at
`t` is never flushed by a sweep at or before `t + windowSize`. In the
two-ingest scenario (ingests at `t₀` and `t₀ + w/2`), a sweep at
`t₀ + w` creates no task, a sweep at exactly `t₀ + 3w/2` also creates no
task (elapsed silence equals `w`), and any sweep strictly after
`t₀ + 3w/2` creates exactly one task. -/
theorem claim_C4_sliding_window_amended :
    (∀ (a : Alert.Aggregator) (now : Int) (k : List Char)
        (g : Alert.AlertGroup),
      ((k, g) ∈ (Alert.sweep a now).2 ↔
        (k, g) ∈ a.groups ∧ now - g.lastSeen > a.windowSize) ∧
      ((k, g) ∈ (Alert.sweep a now).1.groups ↔
        (k, g) ∈ a.groups ∧ ¬(now - g.lastSeen > a.windowSize))) ∧
    (∀ (defaultNs : List Char) (a : Alert.Aggregator) (now nowMs : Int),
      (Alert.sweepAndCreate defaultNs a now nowMs).2.length
        = (Alert.sweep a now).2.length) ∧
    (∀ (a : Alert.Aggregator) (item : Alert.AlertItem) (now : Int),
      ∃ a' g', Alert.Ingest a item now = .ok a' ∧
        Alert.lookupGroup a'.groups (Alert.buildGroupKey item.labels)
          = some g' ∧
        g'.lastSeen = now) ∧
    (∀ (a : Alert.Aggregator) (k : List Char) (g : Alert.AlertGroup) (s : Int),
      (k, g) ∈ a.groups →
      s ≤ g.lastSeen + a.windowSize →
      (k, g) ∉ (Alert.sweep a s).2) ∧
    (∀ (t₀ u : Int), 0 ≤ u → ∀ a₁ a₂ : Alert.Aggregator,
      Alert.Ingest ⟨[], 2 * u⟩
          ⟨"firing", [("alertname".toList, "A".toList)]⟩ t₀ = .ok a₁ →
      Alert.Ingest a₁
          ⟨"firing", [("alertname".toList, "A".toList)]⟩ (t₀ + u) = .ok a₂ →
      (Alert.sweep a₂ (t₀ + 2 * u)).2 = [] ∧
      (Alert.sweep a₂ (t₀ + 3 * u)).2 = [] ∧
      (∀ s, t₀ + 3 * u < s → (Alert.sweep a₂ s).2.length = 1)) := by
  refine ⟨?_, ?_, Alert.Ingest_sets_lastSeen, ?_, ?_⟩
  · intro a now k g
    exact ⟨Alert.mem_sweep_flushed a now k g, Alert.mem_sweep_remaining a now k g⟩
  · intro defaultNs a now nowMs
    simp [Alert.sweepAndCreate]
  · intro a k g s hmem hle hflush
    have h := (Alert.mem_sweep_flushed a s k g).mp hflush
    omega
  · intro t₀ u hu a₁ a₂ h1 h2
    rw [show Alert.Ingest ⟨[], 2 * u⟩
        ⟨"firing", [("alertname".toList, "A".toList)]⟩ t₀
        = .ok ⟨[(Alert.buildGroupKey [("alertname".toList, "A".toList)],
            ⟨Alert.buildGroupKey [("alertname".toList, "A".toList)],
              Alert.mergeLabels [] [("alertname".toList, "A".toList)],
              "A".toList, [], [], t₀, t₀, 1⟩)], 2 * u⟩ from rfl] at h1
    cases h1
    rw [show Alert.Ingest
        ⟨[(Alert.buildGroupKey [("alertname".toList, "A".toList)],
            ⟨Alert.buildGroupKey [("alertname".toList, "A".toList)],
              Alert.mergeLabels [] [("alertname".toList, "A".toList)],
              "A".toList, [], [], t₀, t₀, 1⟩)], 2 * u⟩
        ⟨"firing", [("alertname".toList, "A".toList)]⟩ (t₀ + u)
        = .ok ⟨[(Alert.buildGroupKey [("alertname".toList, "A".toList)],
            ⟨Alert.buildGroupKey [("alertname".toList, "A".toList)],
              Alert.mergeLabels
                (Alert.mergeLabels [] [("alertname".toList, "A".toList)])
                [("alertname".toList, "A".toList)],
              "A".toList, [], [], t₀, t₀ + u, 2⟩)], 2 * u⟩ from rfl] at h2
    cases h2
    refine ⟨?_, ?_, ?_⟩
    · have hc : ¬(t₀ + 2 * u - (t₀ + u) > 2 * u) := by omega
      simp [Alert.sweep, List.filter_cons, hc]
      omega
    · have hc : ¬(t₀ + 3 * u - (t₀ + u) > 2 * u) := by omega
      simp [Alert.sweep, List.filter_cons, hc]
      omega
    · intro s hs
      have hc : s - (t₀ + u) > 2 * u := by omega
      simp [Alert.sweep, List.filter_cons, hc]

/-- Witness for the amended C4, at `t₀ = 0`, `u = 1` (window 2): no task
at times 2 and 3, exactly one strictly after 3; and the never-early
conjunct at a concrete group. -/
theorem claim_C4_sliding_window_amended_witness :
    ((0 : Int) ≤ 1 ∧
      ∀ a₁ a₂ : Alert.Aggregator,
        Alert.Ingest ⟨[], 2⟩
            ⟨"firing", [("alertname".toList, "A".toList)]⟩ 0 = .ok a₁ →
        Alert.Ingest a₁
            ⟨"firing", [("alertname".toList, "A".toList)]⟩ 1 = .ok a₂ →
        (Alert.sweep a₂ 2).2 = [] ∧ (Alert.sweep a₂ 3).2 = [] ∧
        (∀ s, (3 : Int) < s → (Alert.sweep a₂ s).2.length = 1)) ∧
    ("k".toList, (⟨"k".toList, [], [], [], [], 5, 5, 1⟩ : Alert.AlertGroup))
        ∉ (Alert.sweep ⟨[("k".toList, ⟨"k".toList, [], [], [], [], 5, 5, 1⟩)],
            60⟩ 65).2 := by
  constructor
  · exact ⟨by norm_num, fun a₁ a₂ h1 h2 => by
      have h := claim_C4_sliding_window_amended.2.2.2.2 0 1 (by norm_num)
        a₁ a₂ (by simpa using h1) (by simpa using h2)
      simpa using h⟩
  · exact claim_C4_sliding_window_amended.2.2.2.1
      ⟨[("k".toList, ⟨"k".toList, [], [], [], [], 5, 5, 1⟩)], 60⟩
      "k".toList ⟨"k".toList, [], [], [], [], 5, 5, 1⟩ 65
      (by simp) (by norm_num)

/-! ## Skill matching (skill_manager.go, skill type file) -/

namespace Skills

/-- A `map[string]string` at the `String` level (trigger labels, alert
context labels), with Go's `""` default on lookup. -/
abbrev SLabels := List (String × String)

/-- Go map read with zero-value default. -/
def lookupS (m : SLabels) (k : String) : String :=
  ((m.find? (fun p => p.1 == k)).map (fun p => p.2)).getD ""

/-- `TriggerRule` (skill type file). -/
structure TriggerRule where
  alertName : String
  labels : SLabels
deriving Repr, DecidableEq

/-- `Skill` (skill type file). `Parent` and `MemoryPolicy` only matter to
the YAML loader and are not modelled. -/
structure Skill where
  name : String
  description : String
  triggers : List TriggerRule
  systemPrompt : String
  allowedTools : List String
deriving Repr, DecidableEq

/-- `AlertContext` (api/v1alpha1). -/
structure AlertContext where
  name : String
  labels : SLabels
deriving Repr, DecidableEq

/-- The part of `DiagnosisTask.Spec` that `Match` consults. -/
structure TaskSpec where
  alertContext : Option AlertContext
deriving Repr, DecidableEq

/-- The built-in `BaseSkill` (skill type file). -/
def BaseSkill : Skill :=
  { name := "base_skill"
    description := "General Kubernetes troubleshooting skill"
    triggers := []
    systemPrompt := "You are a Kubernetes Expert Agent. Your goal is to diagnose issues in a K8s cluster.\nYou have access to a set of tools to gather information.\nFollow this process:\n1. Think: Analyze the current situation and decide what information you need.\n2. Act: Execute a tool to gather that information.\n3. Observe: Analyze the tool output.\n4. Repeat until you identify the root cause.\n5. Conclude: Provide a Root Cause and a Suggestion."
    allowedTools := [] }

/-- `SkillManager.matchesTrigger` (skill_manager.go). -/
def matchesTrigger (task : TaskSpec) (trigger : TriggerRule) : Bool :=
  match task.alertContext with
  | none => false
  | some ctx =>
    (trigger.alertName == "" || ctx.name == trigger.alertName) &&
    trigger.labels.all (fun p => lookupS ctx.labels p.1 == p.2)

/-- Does any of the skill's triggers match the task (the inner loop of
`SkillManager.Match`)? -/
def skillMatches (task : TaskSpec) (s : Skill) : Bool :=
  s.triggers.any (matchesTrigger task)

/-- The skill registry `skills map[string]Skill`, as name-keyed pairs. -/
abbrev SkillMap := List (String × Skill)

/-- `SkillManager.GetSkillByName` (map read). -/
def getSkillByName (sm : SkillMap) (name : String) : Option Skill :=
  (sm.find? (fun p => p.1 == name)).map (fun p => p.2)

/-- Steps 2 and 3 of `SkillManager.Match`: the legacy OOM fallback, then
`base_skill`, then the built-in `BaseSkill` constant. -/
def matchFallback (sm : SkillMap) (task : TaskSpec) : Skill :=
  let base :=
    match getSkillByName sm "base_skill" with
    | some s => s
    | none => BaseSkill
  match task.alertContext with
  | none => base
  | some ctx =>
    if lookupS ctx.labels "reason" == "OOMKilled" ||
        lookupS ctx.labels "alertname" == "KubeContainerOOMKilled" then
      match getSkillByName sm "oom_diagnosis" with
      | some s => s
      | none => base
    else base

/-- `SkillManager.Match` (skill_manager.go). The Go
`for _, skill := range sm.skills` ranges over a map in an order the
language leaves unspecified and randomizes per iteration; that order is
the explicit `order` argument here (any permutation of the registered
skills). The first skill in `order` with a matching trigger wins;
otherwise the fallback chain runs. -/
def MatchWithOrder (sm : SkillMap) (order : List Skill) (task : TaskSpec) :
    Skill :=
  match order.find? (skillMatches task) with
  | some s => s
  | none => matchFallback sm task

end Skills

/-! ## Lemmas about skill matching and the webhook handler -/

/-- `find?` returns the unique element satisfying the predicate, in any
list containing it in which no other element satisfies it. -/
theorem find?_of_unique {α : Type} (p : α → Bool) (s₀ : α) :
    ∀ l : List α, p s₀ = true → s₀ ∈ l → (∀ x ∈ l, p x = true → x = s₀) →
      l.find? p = some s₀ := by
  intro l
  induction l with
  | nil => intro _ hmem _; simp at hmem
  | cons a t ih =>
    intro hp hmem huniq
    by_cases ha : p a = true
    · rw [KubeMinds.find?_cons_pos p a t ha, huniq a (by simp) ha]
    · rw [KubeMinds.find?_cons_neg p a t ha]
      have hmem' : s₀ ∈ t := by
        rcases List.mem_cons.mp hmem with rfl | h
        · exact absurd hp ha
        · exact h
      exact ih hp hmem' (fun x hx => huniq x (by simp [hx]))

/-- HTTP status of the spec-modelled webhook item loop: always `202`,
because `Ingest` never fails. -/
theorem serveItems_status (alerts : List Alert.AlertItem) :
    ∀ (a : Alert.Aggregator) (now : Int),
      (Alert.serveItems a now alerts).1 = 202 := by
  induction alerts with
  | nil => intro a now; rfl
  | cons item rest ih =>
    intro a now
    by_cases hf : (item.status == "firing") = true
    · obtain ⟨a', ha'⟩ : ∃ a', Alert.Ingest a item now = .ok a' := ⟨_, rfl⟩
      simp only [Alert.serveItems, hf, if_true]
      rw [ha']
      exact ih a' now
    · simp only [Alert.serveItems]
      rw [if_neg hf]
      exact ih a now

/-- **C9 (counterexample).** Two registered skills whose triggers both
match the same task: iterating the registry map in the two orders (both
permutations of the registered skills, both legitimate Go map iteration
orders) makes `Match` return different skills, so `Match` is not a
deterministic first-registered-wins function. -/
theorem claim_C9_skill_match_cex :
    Skills.MatchWithOrder
        [("s1", ⟨"s1", "", [⟨"", []⟩], "", []⟩),
         ("s2", ⟨"s2", "", [⟨"", []⟩], "", []⟩)]
        [⟨"s1", "", [⟨"", []⟩], "", []⟩, ⟨"s2", "", [⟨"", []⟩], "", []⟩]
        ⟨some ⟨"X", []⟩⟩
      = ⟨"s1", "", [⟨"", []⟩], "", []⟩ ∧
    Skills.MatchWithOrder
        [("s1", ⟨"s1", "", [⟨"", []⟩], "", []⟩),
         ("s2", ⟨"s2", "", [⟨"", []⟩], "", []⟩)]
        [⟨"s2", "", [⟨"", []⟩], "", []⟩, ⟨"s1", "", [⟨"", []⟩], "", []⟩]
        ⟨some ⟨"X", []⟩⟩
      = ⟨"s2", "", [⟨"", []⟩], "", []⟩ ∧
    (⟨"s1", "", [⟨"", []⟩], "", []⟩ : Skills.Skill)
      ≠ ⟨"s2", "", [⟨"", []⟩], "", []⟩ ∧
    ([⟨"s2", "", [⟨"", []⟩], "", []⟩, ⟨"s1", "", [⟨"", []⟩], "", []⟩] :
        List Skills.Skill).Perm
      (([("s1", (⟨"s1", "", [⟨"", []⟩], "", []⟩ : Skills.Skill)),
         ("s2", ⟨"s2", "", [⟨"", []⟩], "", []⟩)]).map Prod.snd) := by
  refine ⟨by decide, by decide, by decide, by decide⟩

/-- **C9 (amended).** `matchesTrigger` holds exactly when the task has an
alert context whose name matches the trigger's (when specified) and which
carries every trigger label with the trigger's value. `Match` returns the
first skill in the map's iteration order with a matching trigger; since
that order is unspecified, determinism is guaranteed only when at most
one registered skill matches — then every iteration order yields that
skill — and when no skill matches, every order yields the fallback chain
(legacy OOM lookup, then `base_skill`, then the built-in `BaseSkill`). -/
theorem claim_C9_skill_match_amended :
    (∀ (task : Skills.TaskSpec) (trigger : Skills.TriggerRule),
      Skills.matchesTrigger task trigger = true ↔
        ∃ ctx, task.alertContext = some ctx ∧
          (trigger.alertName = "" ∨ ctx.name = trigger.alertName) ∧
          ∀ p ∈ trigger.labels, Skills.lookupS ctx.labels p.1 = p.2) ∧
    (∀ (sm : Skills.SkillMap) (order : List Skills.Skill)
        (task : Skills.TaskSpec) (s₀ : Skills.Skill),
      order.Perm (sm.map Prod.snd) →
      Skills.skillMatches task s₀ = true →
      s₀ ∈ sm.map Prod.snd →
      (∀ x ∈ sm.map Prod.snd, Skills.skillMatches task x = true → x = s₀) →
      Skills.MatchWithOrder sm order task = s₀) ∧
    (∀ (sm : Skills.SkillMap) (order : List Skills.Skill)
        (task : Skills.TaskSpec),
      order.Perm (sm.map Prod.snd) →
      (∀ x ∈ sm.map Prod.snd, Skills.skillMatches task x = false) →
      Skills.MatchWithOrder sm order task = Skills.matchFallback sm task) := by
  refine ⟨?_, ?_, ?_⟩
  · intro task trigger
    cases hctx : task.alertContext with
    | none => simp [Skills.matchesTrigger, hctx]
    | some ctx =>
      simp only [Skills.matchesTrigger, hctx, Bool.and_eq_true,
        Bool.or_eq_true, beq_iff_eq, List.all_eq_true, Option.some.injEq]
      constructor
      · rintro ⟨h1, h2⟩
        exact ⟨ctx, rfl, by tauto, fun p hp => by simpa using h2 p hp⟩
      · rintro ⟨ctx', hctx', h1, h2⟩
        cases hctx'
        exact ⟨by tauto, fun p hp => by simpa using h2 p hp⟩
  · intro sm order task s₀ hperm hmatch hmem huniq
    unfold Skills.MatchWithOrder
    rw [find?_of_unique (Skills.skillMatches task) s₀ order hmatch
      (hperm.mem_iff.mpr hmem)
      (fun x hx => huniq x (hperm.mem_iff.mp hx))]
  · intro sm order task hperm hnone
    unfold Skills.MatchWithOrder
    rw [List.find?_eq_none.mpr
      (fun x hx => by simp [hnone x (hperm.mem_iff.mp hx)])]

/-- Witness for the amended C9: a uniquely-matching skill is returned
under a reversed iteration order, and with no matching trigger the
fallback (`base_skill` here) is returned. -/
theorem claim_C9_skill_match_amended_witness :
    Skills.MatchWithOrder
        [("base_skill", ⟨"base_skill", "", [], "", []⟩),
         ("oom", ⟨"oom", "", [⟨"OOM", []⟩], "", []⟩)]
        [⟨"oom", "", [⟨"OOM", []⟩], "", []⟩, ⟨"base_skill", "", [], "", []⟩]
        ⟨some ⟨"OOM", []⟩⟩
      = ⟨"oom", "", [⟨"OOM", []⟩], "", []⟩ ∧
    Skills.MatchWithOrder
        [("base_skill", ⟨"base_skill", "", [], "", []⟩),
         ("oom", ⟨"oom", "", [⟨"OOM", []⟩], "", []⟩)]
        [⟨"oom", "", [⟨"OOM", []⟩], "", []⟩, ⟨"base_skill", "", [], "", []⟩]
        ⟨some ⟨"Other", []⟩⟩
      = ⟨"base_skill", "", [], "", []⟩ := by
  constructor
  · exact claim_C9_skill_match_amended.2.1
      [("base_skill", ⟨"base_skill", "", [], "", []⟩),
       ("oom", ⟨"oom", "", [⟨"OOM", []⟩], "", []⟩)]
      [⟨"oom", "", [⟨"OOM", []⟩], "", []⟩, ⟨"base_skill", "", [], "", []⟩]
      ⟨some ⟨"OOM", []⟩⟩ ⟨"oom", "", [⟨"OOM", []⟩], "", []⟩
      (by decide) (by decide) (by decide) (by decide)
  · exact (claim_C9_skill_match_amended.2.2
      [("base_skill", ⟨"base_skill", "", [], "", []⟩),
       ("oom", ⟨"oom", "", [⟨"OOM", []⟩], "", []⟩)]
      [⟨"oom", "", [⟨"OOM", []⟩], "", []⟩, ⟨"base_skill", "", [], "", []⟩]
      ⟨some ⟨"Other", []⟩⟩ (by decide) (by decide)).trans (by decide)

/-- **C10.** `Ingest` returns success for every input (its Go body ends
in `return nil` on all paths), so `ServeWebhook` answers `202` for every
decoded payload — the `500` branch guarded by an `Ingest` error is
unreachable — and an item whose status is not `"firing"` is skipped
without touching any group. -/
theorem claim_C10_ingest_never_fails :
    (∀ (a : Alert.Aggregator) (item : Alert.AlertItem) (now : Int),
      ∃ a', Alert.Ingest a item now = .ok a') ∧
    (∀ (a : Alert.Aggregator) (now : Int)
        (payload : Alert.AlertManagerPayload),
      (Alert.ServeWebhook a now (some payload)).1 = 202) ∧
    (∀ (a : Alert.Aggregator) (now : Int) (item : Alert.AlertItem)
        (rest : List Alert.AlertItem),
      item.status ≠ "firing" →
      Alert.serveItems a now (item :: rest) = Alert.serveItems a now rest) := by
  refine ⟨fun a item now => ⟨_, rfl⟩, ?_, ?_⟩
  · intro a now payload
    exact serveItems_status payload.alerts a now
  · intro a now item rest hstatus
    simp only [Alert.serveItems]
    rw [if_neg (by simpa using hstatus)]

/-- Witness for C10: a concrete mixed payload gets `202`, and a resolved
item is skipped. -/
theorem claim_C10_ingest_never_fails_witness :
    (Alert.ServeWebhook ⟨[], 60⟩ 0 (some ⟨[
        ⟨"firing", [("alertname".toList, "A".toList)]⟩,
        ⟨"resolved", [("alertname".toList, "A".toList)]⟩]⟩)).1 = 202 ∧
    Alert.serveItems ⟨[], 60⟩ 0
        [⟨"resolved", [("alertname".toList, "A".toList)]⟩]
      = Alert.serveItems ⟨[], 60⟩ 0 [] := by
  constructor
  · exact claim_C10_ingest_never_fails.2.1 ⟨[], 60⟩ 0
      ⟨[⟨"firing", [("alertname".toList, "A".toList)]⟩,
        ⟨"resolved", [("alertname".toList, "A".toList)]⟩]⟩
  · exact claim_C10_ingest_never_fails.2.2 ⟨[], 60⟩ 0
      ⟨"resolved", [("alertname".toList, "A".toList)]⟩ [] (by decide)

/-! ## Lemmas about the `extractRootCause` line scan -/

/-- Lines containing no root-cause marker never contribute root-cause
text, and leave the scan outside a root-cause block. -/
theorem foldl_scanLine_no_rc (lines : List (List Char)) :
    ∀ st : ScanState,
      (∀ l ∈ lines, isRCMarker l = false) →
      st.inRC = false →
      ((lines.foldl scanLine st).rcLines = st.rcLines ∧
        (lines.foldl scanLine st).inRC = false) := by
  induction lines with
  | nil => intro st _ h0; exact ⟨rfl, h0⟩
  | cons line rest ih =>
    intro st hm h0
    have hline : isRCMarker line = false := hm line (by simp)
    have hrest : ∀ l ∈ rest, isRCMarker l = false :=
      fun l hl => hm l (by simp [hl])
    rw [List.foldl_cons]
    by_cases hsg : isSGMarker line = true
    · have hstep : scanLine st line =
          { st with
            inSG := true
            inRC := false
            sgLines := st.sgLines ++
              (if trimChars (afterColon line) = [] then []
                else [trimChars (afterColon line)]) } := by
        simp [scanLine, hline, hsg]
      rw [hstep]
      exact ih _ hrest rfl
    · have hstep : scanLine st line = if st.inSG then
          { st with sgLines := st.sgLines ++ [line] } else st := by
        simp [scanLine, hline, hsg, h0]
      by_cases hins : st.inSG
      · rw [hstep, if_pos hins]
        exact ih _ hrest (by simpa using h0)
      · rw [hstep, if_neg hins]
        exact ih _ hrest h0

/-- Inside a root-cause block, marker-free lines are appended verbatim to
the root-cause accumulator. -/
theorem foldl_scanLine_in_rc (lines : List (List Char)) :
    ∀ st : ScanState,
      (∀ l ∈ lines, isRCMarker l = false ∧ isSGMarker l = false) →
      st.inRC = true →
      lines.foldl scanLine st = { st with rcLines := st.rcLines ++ lines } := by
  induction lines with
  | nil => intro st _ _; simp
  | cons line rest ih =>
    intro st hm h1
    have hline := hm line (by simp)
    have hrest : ∀ l ∈ rest, isRCMarker l = false ∧ isSGMarker l = false :=
      fun l hl => hm l (by simp [hl])
    rw [List.foldl_cons]
    have hstep : scanLine st line = { st with rcLines := st.rcLines ++ [line] } := by
      simp [scanLine, hline.1, hline.2, h1]
    rw [hstep, ih _ hrest (by simp [h1])]
    simp

/-- Inside a suggestion block, marker-free lines are appended verbatim to
the suggestion accumulator. -/
theorem foldl_scanLine_in_sg (lines : List (List Char)) :
    ∀ st : ScanState,
      (∀ l ∈ lines, isRCMarker l = false ∧ isSGMarker l = false) →
      st.inRC = false →
      st.inSG = true →
      lines.foldl scanLine st = { st with sgLines := st.sgLines ++ lines } := by
  induction lines with
  | nil => intro st _ _ _; simp
  | cons line rest ih =>
    intro st hm h0 h1
    have hline := hm line (by simp)
    have hrest : ∀ l ∈ rest, isRCMarker l = false ∧ isSGMarker l = false :=
      fun l hl => hm l (by simp [hl])
    rw [List.foldl_cons]
    have hstep : scanLine st line = { st with sgLines := st.sgLines ++ [line] } := by
      simp [scanLine, hline.1, hline.2, h0, h1]
    rw [hstep, ih _ hrest (by simp [h0]) (by simp [h1])]
    simp

/-- **C6 (counterexample).** The claim's clause (a) says a root-cause
marker line always yields the text after its colon (here empty) as root
cause and the suggestion block (here "fix") as suggestion; the code
instead falls back to the whole trimmed content when the root-cause block
collects nothing, so the suggestion is not "fix". -/
theorem claim_C6_extraction_cex :
    (extractRootCause "Root Cause:\nSuggestion: fix".toList).2 ≠ "fix".toList ∧
    extractRootCause "Root Cause:\nSuggestion: fix".toList
      = ("Root Cause:\nSuggestion: fix".toList,
         "Root Cause:\nSuggestion: fix".toList) := by
  constructor
  · decide
  · decide

/-- **C6 (amended).** (a) A root-cause marker line starts a root-cause
block — the trimmed text after its colon (when nonempty) plus the
following marker-free lines — and a suggestion marker line starts the
suggestion block analogously, *provided* the root-cause block collects at
least one line; (b) with no root-cause marker and a period in the
content, the root cause is the trimmed content up to the first period and
the suggestion the whole trimmed content; (c) with no root-cause marker
and no period, both are the trimmed content. (When the root-cause block
collects nothing, the code falls through to (b)/(c).) -/
theorem claim_C6_extraction_amended :
    (∀ (content L1 L2 : List Char) (mid post : List (List Char)),
      splitLines content = L1 :: (mid ++ L2 :: post) →
      isRCMarker L1 = true →
      (∀ l ∈ mid, isRCMarker l = false ∧ isSGMarker l = false) →
      isRCMarker L2 = false →
      isSGMarker L2 = true →
      (∀ l ∈ post, isRCMarker l = false ∧ isSGMarker l = false) →
      (if trimChars (afterColon L1) = [] then []
        else [trimChars (afterColon L1)]) ++ mid ≠ [] →
      extractRootCause content =
        (trimChars (joinLines
            ((if trimChars (afterColon L1) = [] then []
              else [trimChars (afterColon L1)]) ++ mid)),
          trimChars (joinLines
            ((if trimChars (afterColon L2) = [] then []
              else [trimChars (afterColon L2)]) ++ post)))) ∧
    (∀ content : List Char,
      (∀ l ∈ splitLines content, isRCMarker l = false) →
      '.' ∈ content →
      extractRootCause content =
        (trimChars (content.takeWhile (fun c => !(c == '.'))), trimChars content)) ∧
    (∀ content : List Char,
      (∀ l ∈ splitLines content, isRCMarker l = false) →
      '.' ∉ content →
      extractRootCause content = (trimChars content, trimChars content)) := by
  refine ⟨?_, ?_, ?_⟩
  · intro content L1 L2 mid post hsplit hL1 hmid hL2rc hL2sg hpost hne
    have hstep1 : scanLine ⟨[], [], false, false⟩ L1 =
        ⟨(if trimChars (afterColon L1) = [] then []
          else [trimChars (afterColon L1)]), [], true, false⟩ := by
      simp only [scanLine, hL1, if_pos]
      by_cases hv : trimChars (afterColon L1) = [] <;> simp [hv]
    have hmidfold := foldl_scanLine_in_rc mid
      (⟨(if trimChars (afterColon L1) = [] then []
          else [trimChars (afterColon L1)]), [], true, false⟩ : ScanState)
      hmid rfl
    have hstep2 : scanLine
        ({ (⟨(if trimChars (afterColon L1) = [] then []
            else [trimChars (afterColon L1)]), [], true, false⟩ : ScanState) with
          rcLines := (if trimChars (afterColon L1) = [] then []
            else [trimChars (afterColon L1)]) ++ mid }) L2 =
        ⟨(if trimChars (afterColon L1) = [] then []
          else [trimChars (afterColon L1)]) ++ mid,
         (if trimChars (afterColon L2) = [] then []
          else [trimChars (afterColon L2)]), false, true⟩ := by
      simp only [scanLine, hL2rc, hL2sg]
      by_cases hv : trimChars (afterColon L2) = [] <;> simp [hv]
    have hpostfold := foldl_scanLine_in_sg post
      (⟨(if trimChars (afterColon L1) = [] then []
          else [trimChars (afterColon L1)]) ++ mid,
        (if trimChars (afterColon L2) = [] then []
          else [trimChars (afterColon L2)]), false, true⟩ : ScanState)
      hpost rfl rfl
    simp only [extractRootCause]
    rw [hsplit, List.foldl_cons, hstep1, List.foldl_append, hmidfold,
      List.foldl_cons, hstep2, hpostfold]
    simp only [hne, ne_eq, not_false_eq_true, if_true]
  · intro content hm hdot
    have h := foldl_scanLine_no_rc (splitLines content)
      ⟨[], [], false, false⟩ hm rfl
    simp only [extractRootCause]
    rw [show ((splitLines content).foldl scanLine ⟨[], [], false, false⟩).rcLines
        = [] from h.1]
    simp [hdot]
  · intro content hm hdot
    have h := foldl_scanLine_no_rc (splitLines content)
      ⟨[], [], false, false⟩ hm rfl
    simp only [extractRootCause]
    rw [show ((splitLines content).foldl scanLine ⟨[], [], false, false⟩).rcLines
        = [] from h.1]
    simp [hdot]

/-- Witness for the amended C6, at one input per clause. -/
theorem claim_C6_extraction_amended_witness :
    extractRootCause "Root Cause: a\nmid\nSuggestion: b\npost".toList
        = ("a\nmid".toList, "b\npost".toList) ∧
    extractRootCause "It failed. Try again".toList
        = ("It failed".toList, "It failed. Try again".toList) ∧
    extractRootCause "no period here".toList
        = ("no period here".toList, "no period here".toList) := by
  refine ⟨?_, ?_, ?_⟩
  · exact (claim_C6_extraction_amended.1
      "Root Cause: a\nmid\nSuggestion: b\npost".toList
      "Root Cause: a".toList "Suggestion: b".toList
      ["mid".toList] ["post".toList]
      (by decide) (by decide) (by decide) (by decide) (by decide) (by decide)
      (by decide)).trans (by decide)
  · exact (claim_C6_extraction_amended.2.1 "It failed. Try again".toList
      (by decide) (by decide)).trans (by decide)
  · exact (claim_C6_extraction_amended.2.2 "no period here".toList
      (by decide) (by decide)).trans (by decide)

/-! ## Lemmas about the agent loop -/

namespace Agent

/-- The state right after the Think phase of a step whose LLM response
requests tool calls: one more LLM call, the assistant-with-tool-calls
memory entry appended. -/
def actState (st : AgentState) (resp : LLMResponse) : AgentState :=
  { st with
    llmCalls := st.llmCalls + 1
    memory := st.memory ++ [.assistantToolCalls resp.toolCalls] }

theorem runLoop_zero (tools : List Tool) (llm : Nat → Except String LLMResponse)
    (approved : Bool) (maxSteps stepIdx : Nat) (st : AgentState) :
    runLoop tools llm approved maxSteps 0 stepIdx st = ⟨.maxStepsExceeded maxSteps, st⟩ := rfl

theorem runLoop_succ_abort (tools : List Tool) (llm : Nat → Except String LLMResponse)
    (approved : Bool) (maxSteps fuel stepIdx : Nat) (st st2 : AgentState)
    (resp : LLMResponse) (name : String)
    (h : llm stepIdx = .ok resp) (hne : ¬resp.toolCalls = [])
    (hp : processToolCalls tools approved (stepIdx + 1) resp.toolCalls (actState st resp)
        = (st2, some name)) :
    runLoop tools llm approved maxSteps (fuel + 1) stepIdx st
      = ⟨.waitingForApproval name, st2⟩ := by
  simp only [runLoop, h, hne, if_false, actState] at *
  simp [hp]

theorem runLoop_succ_cont (tools : List Tool) (llm : Nat → Except String LLMResponse)
    (approved : Bool) (maxSteps fuel stepIdx : Nat) (st st2 : AgentState)
    (resp : LLMResponse)
    (h : llm stepIdx = .ok resp) (hne : ¬resp.toolCalls = [])
    (hp : processToolCalls tools approved (stepIdx + 1) resp.toolCalls (actState st resp)
        = (st2, none)) :
    runLoop tools llm approved maxSteps (fuel + 1) stepIdx st
      = (if detectLoop st2.findings 3
          then ⟨.loopDetected (lastToolName st2.findings), st2⟩
          else runLoop tools llm approved maxSteps fuel (stepIdx + 1) st2) := by
  simp only [runLoop, h, hne, if_false, actState] at *
  simp [hp]

theorem processToolCalls_llmCalls (tools : List Tool) (approved : Bool) (stepNum : Nat) :
    ∀ (calls : List ToolCall) (st : AgentState),
      (processToolCalls tools approved stepNum calls st).1.llmCalls = st.llmCalls := by
  intro calls
  induction calls with
  | nil => intro st; rfl
  | cons tc rest ih =>
    intro st
    simp only [processToolCalls]
    cases runToolCall tools approved tc with
    | approvalNeeded name => rfl
    | output out exec => exact ih _

theorem runLoop_exhausts (tools : List Tool) (llm : Nat → Except String LLMResponse)
    (approved : Bool) (maxSteps : Nat) :
    ∀ (fuel stepIdx : Nat) (st : AgentState),
      (∀ i, stepIdx ≤ i → i < stepIdx + fuel →
        ∃ resp, llm i = .ok resp ∧ resp.toolCalls ≠ []) →
      (∀ n, (runLoop tools llm approved maxSteps fuel stepIdx st).outcome
          ≠ .waitingForApproval n) →
      (∀ n, (runLoop tools llm approved maxSteps fuel stepIdx st).outcome
          ≠ .loopDetected n) →
      (runLoop tools llm approved maxSteps fuel stepIdx st).outcome
          = .maxStepsExceeded maxSteps ∧
        (runLoop tools llm approved maxSteps fuel stepIdx st).finalState.llmCalls
          = st.llmCalls + fuel := by
  intro fuel
  induction fuel with
  | zero => intro stepIdx st _ _ _; exact ⟨rfl, rfl⟩
  | succ fuel ih =>
    intro stepIdx st hllm hw hl
    obtain ⟨resp, hok, hne⟩ := hllm stepIdx le_rfl (by omega)
    rcases hp : processToolCalls tools approved (stepIdx + 1) resp.toolCalls
        (actState st resp) with ⟨st2, abort⟩
    cases abort with
    | some name =>
      exfalso
      exact hw name (by rw [runLoop_succ_abort tools llm approved maxSteps fuel
        stepIdx st st2 resp name hok (by simpa using hne) hp])
    | none =>
      have heq := runLoop_succ_cont tools llm approved maxSteps fuel
        stepIdx st st2 resp hok (by simpa using hne) hp
      by_cases hd : detectLoop st2.findings 3
      · exfalso
        apply hl (lastToolName st2.findings)
        rw [heq, if_pos hd]
      · rw [heq, if_neg hd] at hw hl ⊢
        have hcalls : st2.llmCalls = st.llmCalls + 1 := by
          have := processToolCalls_llmCalls tools approved (stepIdx + 1)
            resp.toolCalls (actState st resp)
          rw [hp] at this
          simpa [actState] using this
        have := ih (stepIdx + 1) st2
          (fun i h1 h2 => hllm i (by omega) (by omega)) hw hl
        refine ⟨this.1, ?_⟩
        rw [this.2, hcalls]
        omega

theorem runLoop_succ_err (tools : List Tool) (llm : Nat → Except String LLMResponse)
    (approved : Bool) (maxSteps fuel stepIdx : Nat) (st : AgentState) (e : String)
    (h : llm stepIdx = .error e) :
    runLoop tools llm approved maxSteps (fuel + 1) stepIdx st
      = ⟨.llmError e, { st with llmCalls := st.llmCalls + 1 }⟩ := by
  simp [runLoop, h]

theorem runLoop_succ_conclude (tools : List Tool) (llm : Nat → Except String LLMResponse)
    (approved : Bool) (maxSteps fuel stepIdx : Nat) (st : AgentState)
    (resp : LLMResponse)
    (h : llm stepIdx = .ok resp) (hne : resp.toolCalls = []) :
    runLoop tools llm approved maxSteps (fuel + 1) stepIdx st
      = ⟨.ok ⟨(extractRootCauseS resp.content).1, (extractRootCauseS resp.content).2⟩,
          { st with
            llmCalls := st.llmCalls + 1
            memory := st.memory ++ [.assistant resp.content] }⟩ := by
  simp [runLoop, h, hne]

/-- If `runToolCall` actually performed an `Execute`, the executed tool
passed the safety gate: it is registered under the recorded name, is not
`Forbidden`, and is `HighRisk` only when the run is approved. -/
theorem runToolCall_exec_safety (tools : List Tool) (approved : Bool)
    (tc : ToolCall) (out : String) (q : String × String)
    (h : runToolCall tools approved tc = .output out (some q)) :
    ∃ t, findTool tools q.1 = some t ∧ t.safetyLevel ≠ .forbidden ∧
      (t.safetyLevel = .highRisk → approved = true) := by
  rcases hf : findTool tools tc.function.name with _ | t
  · simp [runToolCall, hf] at h
  · simp only [runToolCall, hf] at h
    have hname : t.name = tc.function.name := by
      have := List.find?_some hf
      simpa using this
    by_cases hforb : t.safetyLevel = .forbidden
    · rw [if_pos hforb] at h; simp at h
    · rw [if_neg hforb] at h
      by_cases hhr : t.safetyLevel = .highRisk ∧ approved = false
      · rw [if_pos hhr] at h; simp at h
      · rw [if_neg hhr] at h
        have hq : q = (t.name, tc.function.arguments) := by
          rcases he : t.execute tc.function.arguments with e | o <;>
            rw [he] at h <;> simp_all
        refine ⟨t, ?_, hforb, ?_⟩
        · rw [hq]
          simpa [findTool, hname] using hf
        · intro hh
          by_contra hap
          exact hhr ⟨hh, by simpa using hap⟩

/-- Every entry the Act phase adds to the execution log belongs to a tool
that passed the safety gate. -/
theorem processToolCalls_execLog_mem (tools : List Tool) (approved : Bool)
    (stepNum : Nat) :
    ∀ (calls : List ToolCall) (st : AgentState) (p : String × String),
      p ∈ (processToolCalls tools approved stepNum calls st).1.execLog →
      p ∈ st.execLog ∨
        ∃ t, findTool tools p.1 = some t ∧ t.safetyLevel ≠ .forbidden ∧
          (t.safetyLevel = .highRisk → approved = true) := by
  intro calls
  induction calls with
  | nil => intro st p hp; exact Or.inl hp
  | cons tc rest ih =>
    intro st p hp
    simp only [processToolCalls] at hp
    rcases hr : runToolCall tools approved tc with ⟨out, exec⟩ | name
    · rw [hr] at hp
      rcases ih _ p hp with hmem | hgood
      · simp only [List.mem_append] at hmem
        rcases hmem with hmem | hmem
        · exact Or.inl hmem
        · cases exec with
          | none => simp at hmem
          | some q =>
            right
            have hq : p = q := by simpa using hmem
            subst hq
            exact runToolCall_exec_safety tools approved tc out p hr
      · exact Or.inr hgood
    · rw [hr] at hp
      exact Or.inl hp

/-- `runLoop` only grows the execution log with safety-gate-passing
entries. -/
theorem runLoop_execLog_mem (tools : List Tool) (llm : Nat → Except String LLMResponse)
    (approved : Bool) (maxSteps : Nat) :
    ∀ (fuel stepIdx : Nat) (st : AgentState) (p : String × String),
      p ∈ (runLoop tools llm approved maxSteps fuel stepIdx st).finalState.execLog →
      p ∈ st.execLog ∨
        ∃ t, findTool tools p.1 = some t ∧ t.safetyLevel ≠ .forbidden ∧
          (t.safetyLevel = .highRisk → approved = true) := by
  intro fuel
  induction fuel with
  | zero => intro stepIdx st p hp; exact Or.inl hp
  | succ fuel ih =>
    intro stepIdx st p hp
    rcases hllm : llm stepIdx with e | resp
    · rw [runLoop_succ_err tools llm approved maxSteps fuel stepIdx st e hllm] at hp
      exact Or.inl hp
    · by_cases hne : resp.toolCalls = []
      · rw [runLoop_succ_conclude tools llm approved maxSteps fuel stepIdx st resp
          hllm hne] at hp
        exact Or.inl hp
      · rcases hproc : processToolCalls tools approved (stepIdx + 1) resp.toolCalls
            (actState st resp) with ⟨st2, abort⟩
        have hact : p ∈ st2.execLog →
            p ∈ st.execLog ∨
              ∃ t, findTool tools p.1 = some t ∧ t.safetyLevel ≠ .forbidden ∧
                (t.safetyLevel = .highRisk → approved = true) := by
          intro hmem
          have := processToolCalls_execLog_mem tools approved (stepIdx + 1)
            resp.toolCalls (actState st resp) p (by rw [hproc]; exact hmem)
          simpa [actState] using this
        cases abort with
        | some name =>
          rw [runLoop_succ_abort tools llm approved maxSteps fuel stepIdx st st2
            resp name hllm hne hproc] at hp
          exact hact hp
        | none =>
          rw [runLoop_succ_cont tools llm approved maxSteps fuel stepIdx st st2
            resp hllm hne hproc] at hp
          by_cases hd : detectLoop st2.findings 3
          · rw [if_pos hd] at hp
            exact hact hp
          · rw [if_neg hd] at hp
            rcases ih (stepIdx + 1) st2 p hp with hmem | hgood
            · exact hact hmem
            · exact Or.inr hgood

/-- A `Forbidden` tool call turns into the synthetic error output: no
execution, the message appended to memory, a finding emitted, and the
loop proceeding with the remaining calls. -/
theorem processToolCalls_forbidden (tools : List Tool) (approved : Bool)
    (stepNum : Nat) (tc : ToolCall) (rest : List ToolCall) (st : AgentState)
    (t : Tool)
    (hf : findTool tools tc.function.name = some t)
    (hforb : t.safetyLevel = .forbidden) :
    processToolCalls tools approved stepNum (tc :: rest) st =
      processToolCalls tools approved stepNum rest
        { st with
          memory := st.memory ++ [.toolOutput tc.id (forbiddenMsg t.name)]
          findings := st.findings ++ [mkFinding stepNum tc (forbiddenMsg t.name)] } := by
  have hr : runToolCall tools approved tc = .output (forbiddenMsg t.name) none := by
    simp [runToolCall, hf, hforb]
  simp [processToolCalls, hr]

/-- Processing a concatenation: once the first block finishes without an
abort, processing continues on the second block from the reached state. -/
theorem processToolCalls_append_none (tools : List Tool) (approved : Bool)
    (stepNum : Nat) :
    ∀ (pre post : List ToolCall) (st st' : AgentState),
      processToolCalls tools approved stepNum pre st = (st', none) →
      processToolCalls tools approved stepNum (pre ++ post) st =
        processToolCalls tools approved stepNum post st' := by
  intro pre
  induction pre with
  | nil =>
    intro post st st' h
    simp only [processToolCalls] at h
    cases h
    simp
  | cons tc rest ih =>
    intro post st st' h
    simp only [processToolCalls, List.cons_append] at h ⊢
    rcases hr : runToolCall tools approved tc with ⟨out, exec⟩ | name
    · rw [hr] at h
      exact ih _ _ _ h
    · rw [hr] at h
      simp at h

/-- A `HighRisk` call without approval aborts immediately, leaving the
state untouched. -/
theorem processToolCalls_highRisk_head (tools : List Tool) (stepNum : Nat)
    (tc : ToolCall) (rest : List ToolCall) (st : AgentState) (t : Tool)
    (hf : findTool tools tc.function.name = some t)
    (hhr : t.safetyLevel = .highRisk) :
    processToolCalls tools false stepNum (tc :: rest) st = (st, some t.name) := by
  have hr : runToolCall tools false tc = .approvalNeeded t.name := by
    simp [runToolCall, hf, hhr]
  simp [processToolCalls, hr]

/-- Every memory entry the Act phase adds is a tool output keyed by the id
of one of the processed calls. -/
theorem processToolCalls_memory_mem (tools : List Tool) (approved : Bool)
    (stepNum : Nat) :
    ∀ (calls : List ToolCall) (st : AgentState) (e : MemEntry),
      e ∈ (processToolCalls tools approved stepNum calls st).1.memory →
      e ∈ st.memory ∨ ∃ c ∈ calls, ∃ out, e = .toolOutput c.id out := by
  intro calls
  induction calls with
  | nil => intro st e he; exact Or.inl he
  | cons tc rest ih =>
    intro st e he
    simp only [processToolCalls] at he
    rcases hr : runToolCall tools approved tc with ⟨out, exec⟩ | name
    · rw [hr] at he
      rcases ih _ e he with hmem | ⟨c, hc, o, rfl⟩
      · simp only [List.mem_append, List.mem_singleton] at hmem
        rcases hmem with hmem | rfl
        · exact Or.inl hmem
        · exact Or.inr ⟨tc, by simp, out, rfl⟩
      · exact Or.inr ⟨c, by simp [hc], o, rfl⟩
    · rw [hr] at he
      exact Or.inl he

/-- Every finding the Act phase adds was built (by `mkFinding`) from one
of the processed calls. -/
theorem processToolCalls_findings_mem (tools : List Tool) (approved : Bool)
    (stepNum : Nat) :
    ∀ (calls : List ToolCall) (st : AgentState) (f : Finding),
      f ∈ (processToolCalls tools approved stepNum calls st).1.findings →
      f ∈ st.findings ∨ ∃ c ∈ calls, ∃ out, f = mkFinding stepNum c out := by
  intro calls
  induction calls with
  | nil => intro st f hf; exact Or.inl hf
  | cons tc rest ih =>
    intro st f hf
    simp only [processToolCalls] at hf
    rcases hr : runToolCall tools approved tc with ⟨out, exec⟩ | name
    · rw [hr] at hf
      rcases ih _ f hf with hmem | ⟨c, hc, o, rfl⟩
      · simp only [List.mem_append, List.mem_singleton] at hmem
        rcases hmem with hmem | rfl
        · exact Or.inl hmem
        · exact Or.inr ⟨tc, by simp, out, rfl⟩
      · exact Or.inr ⟨c, by simp [hc], o, rfl⟩
    · rw [hr] at hf
      exact Or.inl hf

/-- If a block of calls was processed without aborting, none of its calls
demanded approval. -/
theorem processToolCalls_none_no_abort (tools : List Tool) (approved : Bool)
    (stepNum : Nat) :
    ∀ (calls : List ToolCall) (st st' : AgentState),
      processToolCalls tools approved stepNum calls st = (st', none) →
      ∀ c ∈ calls, ∀ n, runToolCall tools approved c ≠ .approvalNeeded n := by
  intro calls
  induction calls with
  | nil => intro st st' _ c hc; simp at hc
  | cons tc rest ih =>
    intro st st' h c hc n
    simp only [processToolCalls] at h
    rcases hr : runToolCall tools approved tc with ⟨out, exec⟩ | name
    · rw [hr] at h
      rcases List.mem_cons.mp hc with rfl | hc'
      · rw [hr]; intro hcontra; cases hcontra
      · exact ih _ _ h c hc' n
    · rw [hr] at h
      simp at h

/-- A call to a registered `HighRisk` tool (with approval matched by
`findTool` on its name) aborts as `approvalNeeded`. -/
theorem runToolCall_highRisk (tools : List Tool) (c : ToolCall) (t : Tool)
    (hf : findTool tools c.function.name = some t)
    (hhr : t.safetyLevel = .highRisk) :
    runToolCall tools false c = .approvalNeeded t.name := by
  simp [runToolCall, hf, hhr]

/-- `detectLoop` with window 3 holds exactly when at least three findings
exist and the last three share one tool name and one argument string. -/
theorem detectLoop_three_iff (findings : List Finding) :
    detectLoop findings 3 = true ↔
      3 ≤ findings.length ∧
      ∃ n a, ∀ f ∈ findings.drop (findings.length - 3),
        f.toolName = n ∧ f.toolArgs = a := by
  unfold detectLoop
  by_cases hlen : findings.length < 3
  · rw [if_pos hlen]
    simp only [Bool.false_eq_true, false_iff]
    rintro ⟨h3, -⟩
    omega
  · rw [if_neg hlen]
    have h3 : 3 ≤ findings.length := by omega
    have hlen3 : (findings.drop (findings.length - 3)).length = 3 := by
      rw [List.length_drop]; omega
    rcases htail : findings.drop (findings.length - 3) with - | ⟨first, rest⟩
    · rw [htail] at hlen3; simp at hlen3
    · constructor
      · intro hall
        refine ⟨h3, first.toolName, first.toolArgs, ?_⟩
        intro f hf
        rcases List.mem_cons.mp hf with rfl | hf'
        · exact ⟨rfl, rfl⟩
        · have hres := List.all_eq_true.mp hall f hf'
          simp only [Bool.and_eq_true, beq_iff_eq] at hres
          exact hres
      · rintro ⟨-, n, a, hy⟩
        have hfirst := hy first (by simp)
        apply List.all_eq_true.mpr
        intro f hf
        have hmem := hy f (List.mem_cons_of_mem first hf)
        simp only [Bool.and_eq_true, beq_iff_eq]
        exact ⟨hmem.1.trans hfirst.1.symm, hmem.2.trans hfirst.2.symm⟩

end Agent

/-- **C3.** After the Act phase of each step the run aborts (naming the
offending tool from the last finding) if and only if at least three
findings have accumulated across the run and the last three share
identical tool name and arguments; fewer than three findings never abort;
the window at the call site is exactly three. -/
theorem claim_C3_loop_detection :
    (∀ findings : List Agent.Finding,
      Agent.detectLoop findings 3 = true ↔
        3 ≤ findings.length ∧
        ∃ n a, ∀ f ∈ findings.drop (findings.length - 3),
          f.toolName = n ∧ f.toolArgs = a) ∧
    (∀ findings : List Agent.Finding, findings.length < 3 →
      Agent.detectLoop findings 3 = false) ∧
    (∀ (tools : List Agent.Tool) (llm : Nat → Except String Agent.LLMResponse)
        (approved : Bool) (maxSteps fuel stepIdx : Nat)
        (st st2 : Agent.AgentState) (resp : Agent.LLMResponse),
      llm stepIdx = .ok resp →
      ¬resp.toolCalls = [] →
      Agent.processToolCalls tools approved (stepIdx + 1) resp.toolCalls
          (Agent.actState st resp) = (st2, none) →
      Agent.runLoop tools llm approved maxSteps (fuel + 1) stepIdx st
        = (if Agent.detectLoop st2.findings 3
            then ⟨.loopDetected (Agent.lastToolName st2.findings), st2⟩
            else Agent.runLoop tools llm approved maxSteps fuel (stepIdx + 1) st2)) := by
  refine ⟨Agent.detectLoop_three_iff, ?_, ?_⟩
  · intro findings hlt
    unfold Agent.detectLoop
    rw [if_pos hlt]
  · exact fun tools llm approved maxSteps fuel stepIdx st st2 resp h hne hp =>
      Agent.runLoop_succ_cont tools llm approved maxSteps fuel stepIdx st st2
        resp h hne hp

/-- Witness for C3: two findings never abort; a step whose Act phase
brings the same `(tool, args)` count to three makes the loop return the
`loopDetected` error for that tool. -/
theorem claim_C3_loop_detection_witness :
    Agent.detectLoop
        [⟨1, "x", "{}", "Error: Tool x not found"⟩,
         ⟨2, "x", "{}", "Error: Tool x not found"⟩] 3 = false ∧
    Agent.runLoop [] (fun _ => .ok ⟨"", [⟨"i", ⟨"x", "{}"⟩⟩]⟩) false 5 1 2
        ⟨[], [⟨1, "x", "{}", "Error: Tool x not found"⟩,
              ⟨2, "x", "{}", "Error: Tool x not found"⟩], [], 2⟩
      = ⟨.loopDetected "x",
          ⟨[.assistantToolCalls [⟨"i", ⟨"x", "{}"⟩⟩],
            .toolOutput "i" "Error: Tool x not found"],
           [⟨1, "x", "{}", "Error: Tool x not found"⟩,
            ⟨2, "x", "{}", "Error: Tool x not found"⟩,
            ⟨3, "x", "{}", "Error: Tool x not found"⟩], [], 3⟩⟩ := by
  refine ⟨claim_C3_loop_detection.2.1 _ (by decide), ?_⟩
  rw [claim_C3_loop_detection.2.2 [] (fun _ => .ok ⟨"", [⟨"i", ⟨"x", "{}"⟩⟩]⟩)
    false 5 0 2
    ⟨[], [⟨1, "x", "{}", "Error: Tool x not found"⟩,
          ⟨2, "x", "{}", "Error: Tool x not found"⟩], [], 2⟩
    ⟨[.assistantToolCalls [⟨"i", ⟨"x", "{}"⟩⟩],
      .toolOutput "i" "Error: Tool x not found"],
     [⟨1, "x", "{}", "Error: Tool x not found"⟩,
      ⟨2, "x", "{}", "Error: Tool x not found"⟩,
      ⟨3, "x", "{}", "Error: Tool x not found"⟩], [], 3⟩
    ⟨"", [⟨"i", ⟨"x", "{}"⟩⟩]⟩ rfl (by simp) (by decide)]
  decide

/-- **C1.** When the Act phase reaches a `HighRisk` tool request with
`approved = false` (after the earlier calls of the response processed
without aborting), the run returns `ErrWaitingForApproval` with that
tool's name immediately: the final state is exactly the state before the
blocked call, the tool was never executed during the phase, no finding
names it, and no tool output for that call's id was added; the loop
propagates the abort as the run's outcome; and the reconciler maps this
outcome to phase `WaitingApproval` with message
"Tool <name> requires approval." without touching the report. -/
theorem claim_C1_approval_gate :
    (∀ (tools : List Agent.Tool) (stepNum : Nat)
        (pre post : List Agent.ToolCall) (tc : Agent.ToolCall)
        (st st' : Agent.AgentState) (t : Agent.Tool),
      Agent.processToolCalls tools false stepNum pre st = (st', none) →
      Agent.findTool tools tc.function.name = some t →
      t.safetyLevel = .highRisk →
      Agent.processToolCalls tools false stepNum (pre ++ tc :: post) st
          = (st', some t.name) ∧
        (∀ args, (t.name, args) ∈ st'.execLog → (t.name, args) ∈ st.execLog) ∧
        (∀ f, f ∈ st'.findings → f ∉ st.findings → f.toolName ≠ t.name) ∧
        ((∀ c ∈ pre, c.id ≠ tc.id) →
          ∀ out, Agent.MemEntry.toolOutput tc.id out ∈ st'.memory →
            Agent.MemEntry.toolOutput tc.id out ∈ st.memory)) ∧
    (∀ (tools : List Agent.Tool) (llm : Nat → Except String Agent.LLMResponse)
        (maxSteps fuel stepIdx : Nat) (st st2 : Agent.AgentState)
        (resp : Agent.LLMResponse) (name : String),
      llm stepIdx = .ok resp →
      resp.toolCalls ≠ [] →
      Agent.processToolCalls tools false (stepIdx + 1) resp.toolCalls
          (Agent.actState st resp) = (st2, some name) →
      Agent.runLoop tools llm false maxSteps (fuel + 1) stepIdx st
        = ⟨.waitingForApproval name, st2⟩) ∧
    (∀ (status : Controller.TaskStatus) (name : String),
      Controller.applyRunOutcome status (.waitingForApproval name) =
        { status with
          phase := .waitingApproval
          message := "Tool " ++ name ++ " requires approval." }) := by
  refine ⟨?_, ?_, ?_⟩
  · intro tools stepNum pre post tc st st' t hpre hf hhr
    have hname : t.name = tc.function.name := by
      simpa using List.find?_some hf
    refine ⟨?_, ?_, ?_, ?_⟩
    · rw [Agent.processToolCalls_append_none tools false stepNum pre (tc :: post)
        st st' hpre]
      exact Agent.processToolCalls_highRisk_head tools stepNum tc post st' t hf hhr
    · intro args hmem
      rcases Agent.processToolCalls_execLog_mem tools false stepNum pre st
          (t.name, args) (by rw [hpre]; exact hmem) with h | ⟨u, hu, _, hhu⟩
      · exact h
      · exfalso
        have : u = t := by
          rw [show ((t.name, args).1 : String) = tc.function.name from hname] at hu
          rw [hf] at hu
          exact (Option.some_injective _ hu).symm
        subst this
        simpa using hhu hhr
    · intro f hmem hnotin hfn
      rcases Agent.processToolCalls_findings_mem tools false stepNum pre st f
          (by rw [hpre]; exact hmem) with h | ⟨c, hc, o, rfl⟩
      · exact hnotin h
      · have hcn : c.function.name = tc.function.name := by
          have : (Agent.mkFinding stepNum c o).toolName = c.function.name := rfl
          rw [this] at hfn
          rw [hfn, hname]
        have habort := Agent.processToolCalls_none_no_abort tools false stepNum
          pre st st' hpre c hc t.name
        exact habort (Agent.runToolCall_highRisk tools c t (by rw [hcn]; exact hf) hhr)
    · intro hid out hmem
      rcases Agent.processToolCalls_memory_mem tools false stepNum pre st
          (.toolOutput tc.id out) (by rw [hpre]; exact hmem) with h | ⟨c, hc, o, he⟩
      · exact h
      · exfalso
        have : tc.id = c.id := by
          injection he with h1 h2
        exact hid c hc this.symm
  · intro tools llm maxSteps fuel stepIdx st st2 resp name hok hne hp
    exact Agent.runLoop_succ_abort tools llm false maxSteps fuel stepIdx st st2
      resp name hok hne hp
  · intro status name
    rfl

/-- Witness for C1: a concrete response `[reader, deleter, reader]` with
`deleter` `HighRisk` and no approval aborts after the first call, the
loop returns `WaitingForApproval deleter`, and the reconciler turns that
into `WaitingApproval` with the message, leaving the report unset. -/
theorem claim_C1_approval_gate_witness :
    (Agent.processToolCalls
        [⟨"reader", .readOnly, fun _ => .ok "out"⟩,
         ⟨"deleter", .highRisk, fun _ => .ok "gone"⟩] false 1
        ([⟨"c1", ⟨"reader", "{}"⟩⟩] ++ ⟨"c2", ⟨"deleter", "{}"⟩⟩ ::
          [⟨"c3", ⟨"reader", "{}"⟩⟩]) ⟨[], [], [], 0⟩
        = (⟨[.toolOutput "c1" "out"], [⟨1, "reader", "{}", "out"⟩],
            [("reader", "{}")], 0⟩, some "deleter")) ∧
    Controller.applyRunOutcome ⟨.running, "", none⟩ (.waitingForApproval "deleter")
      = ⟨.waitingApproval, "Tool deleter requires approval.", none⟩ := by
  have h := claim_C1_approval_gate
  refine ⟨?_, h.2.2 ⟨.running, "", none⟩ "deleter"⟩
  have h1 := (h.1
    [⟨"reader", .readOnly, fun _ => .ok "out"⟩,
     ⟨"deleter", .highRisk, fun _ => .ok "gone"⟩] 1
    [⟨"c1", ⟨"reader", "{}"⟩⟩] [⟨"c3", ⟨"reader", "{}"⟩⟩]
    ⟨"c2", ⟨"deleter", "{}"⟩⟩ ⟨[], [], [], 0⟩
    ⟨[.toolOutput "c1" "out"], [⟨1, "reader", "{}", "out"⟩], [("reader", "{}")], 0⟩
    ⟨"deleter", .highRisk, fun _ => .ok "gone"⟩ rfl rfl rfl).1
  exact h1

/-- **C2.** `Execute` is never invoked on a `Forbidden` tool: every entry
of a run's execution log names a registered, non-`Forbidden` tool (and a
`HighRisk` one only under approval); and a requested `Forbidden` tool
yields the synthetic output "Error: Tool <name> is forbidden by safety
policy." appended to memory as that call's tool output, a `Finding`
carrying that message, and the loop continuing with the remaining calls
rather than terminating. -/
theorem claim_C2_forbidden_never_executed :
    (∀ (tools : List Agent.Tool) (llm : Nat → Except String Agent.LLMResponse)
        (maxSteps : Nat) (initMemory : List Agent.MemEntry) (goal : String)
        (approved : Bool) (p : String × String),
      p ∈ (Agent.Run tools llm maxSteps initMemory goal approved).finalState.execLog →
      ∃ t, Agent.findTool tools p.1 = some t ∧ t.safetyLevel ≠ .forbidden ∧
        (t.safetyLevel = .highRisk → approved = true)) ∧
    (∀ (tools : List Agent.Tool) (approved : Bool) (stepNum : Nat)
        (tc : Agent.ToolCall) (rest : List Agent.ToolCall)
        (st : Agent.AgentState) (t : Agent.Tool),
      Agent.findTool tools tc.function.name = some t →
      t.safetyLevel = .forbidden →
      Agent.processToolCalls tools approved stepNum (tc :: rest) st =
        Agent.processToolCalls tools approved stepNum rest
          { st with
            memory := st.memory ++ [.toolOutput tc.id (Agent.forbiddenMsg t.name)]
            findings := st.findings ++
              [Agent.mkFinding stepNum tc (Agent.forbiddenMsg t.name)] }) := by
  constructor
  · intro tools llm maxSteps initMemory goal approved p hp
    simp only [Agent.Run] at hp
    rcases Agent.runLoop_execLog_mem tools llm approved maxSteps maxSteps 0
      ⟨initMemory ++ [.user (Agent.goalMessage goal)], [], [], 0⟩ p hp with hmem | hgood
    · simp at hmem
    · exact hgood
  · exact Agent.processToolCalls_forbidden

/-- Witness for C2: a run that executes one `ReadOnly` tool has that tool
(and nothing `Forbidden`) in its execution log, and a concrete `Forbidden`
call produces exactly the synthetic output, memory entry and finding. -/
theorem claim_C2_forbidden_never_executed_witness :
    (∃ t, Agent.findTool
        [⟨"reader", .readOnly, fun _ => .ok "out"⟩,
         ⟨"deleter", .forbidden, fun _ => .ok "boom"⟩]
        ("reader", "{}").1 = some t ∧ t.safetyLevel ≠ .forbidden ∧
        (t.safetyLevel = .highRisk → false = true)) ∧
    Agent.processToolCalls
        [⟨"deleter", Agent.SafetyLevel.forbidden, fun _ => .ok "boom"⟩] false 1
        [⟨"c1", ⟨"deleter", "{}"⟩⟩] ⟨[], [], [], 0⟩ =
      (⟨[.toolOutput "c1" "Error: Tool deleter is forbidden by safety policy."],
        [⟨1, "deleter", "{}",
          "Error: Tool deleter is forbidden by safety policy."⟩], [], 0⟩, none) := by
  constructor
  · apply claim_C2_forbidden_never_executed.1
      [⟨"reader", .readOnly, fun _ => .ok "out"⟩,
       ⟨"deleter", .forbidden, fun _ => .ok "boom"⟩]
      (fun i => if i = 0 then .ok ⟨"", [⟨"c1", ⟨"reader", "{}"⟩⟩]⟩
        else .ok ⟨"done. ok", []⟩)
      2 [] "g" false ("reader", "{}")
    decide
  · rw [claim_C2_forbidden_never_executed.2
      [⟨"deleter", Agent.SafetyLevel.forbidden, fun _ => .ok "boom"⟩] false 1
      ⟨"c1", ⟨"deleter", "{}"⟩⟩ [] ⟨[], [], [], 0⟩
      ⟨"deleter", Agent.SafetyLevel.forbidden, fun _ => .ok "boom"⟩ rfl rfl]
    rfl

/-- **C5.** For every `maxSteps` N: if every LLM response requests at
least one tool call and neither the approval gate nor loop detection
aborts the run, `Run` performs exactly N LLM steps and returns the error
"agent exceeded maximum steps (N)"; for N = 0 the error is immediate,
with no LLM call and no tool execution. -/
theorem claim_C5_max_steps (tools : List Agent.Tool)
    (llm : Nat → Except String Agent.LLMResponse)
    (maxSteps : Nat) (initMemory : List Agent.MemEntry) (goal : String)
    (approved : Bool)
    (hllm : ∀ i, i < maxSteps → ∃ resp, llm i = .ok resp ∧ resp.toolCalls ≠ [])
    (hw : ∀ n, (Agent.Run tools llm maxSteps initMemory goal approved).outcome
        ≠ .waitingForApproval n)
    (hl : ∀ n, (Agent.Run tools llm maxSteps initMemory goal approved).outcome
        ≠ .loopDetected n) :
    (Agent.Run tools llm maxSteps initMemory goal approved).outcome
        = .maxStepsExceeded maxSteps ∧
      Agent.errorMessage (Agent.Run tools llm maxSteps initMemory goal approved).outcome
        = some ("agent exceeded maximum steps (" ++ toString maxSteps ++ ")") ∧
      (Agent.Run tools llm maxSteps initMemory goal approved).finalState.llmCalls
        = maxSteps ∧
      (maxSteps = 0 →
        Agent.Run tools llm maxSteps initMemory goal approved =
          ⟨.maxStepsExceeded 0,
            ⟨initMemory ++ [.user (Agent.goalMessage goal)], [], [], 0⟩⟩) := by
  simp only [Agent.Run] at hw hl ⊢
  have h := Agent.runLoop_exhausts tools llm approved maxSteps maxSteps 0
    ⟨initMemory ++ [.user (Agent.goalMessage goal)], [], [], 0⟩
    (fun i h1 h2 => hllm i (by omega)) hw hl
  refine ⟨h.1, ?_, ?_, ?_⟩
  · rw [h.1]; rfl
  · simpa using h.2
  · intro h0; subst h0; rfl

/-- Witness for C5: a concrete two-step LLM that always asks for a tool
call exhausts a budget of 2 with the budget error, and a budget of 0
fails immediately. -/
theorem claim_C5_max_steps_witness :
    (Agent.Run [] (fun _ => .ok ⟨"", [⟨"c1", ⟨"t", "{}"⟩⟩]⟩) 0 [] "g" false).outcome
      = .maxStepsExceeded 0 ∧
    (Agent.Run [] (fun _ => .ok ⟨"", [⟨"c1", ⟨"t", "{}"⟩⟩]⟩) 0 [] "g" false).finalState.llmCalls
      = 0 := by
  have h := claim_C5_max_steps []
    (fun _ => .ok ⟨"", [⟨"c1", ⟨"t", "{}"⟩⟩]⟩) 0 [] "g" false
    (fun i hi => ⟨⟨"", [⟨"c1", ⟨"t", "{}"⟩⟩]⟩, rfl, by simp⟩)
    (by intro n h; simp [Agent.Run, Agent.runLoop] at h)
    (by intro n h; simp [Agent.Run, Agent.runLoop] at h)
  exact ⟨h.1, h.2.2.1⟩

end KubeMinds
